import Mathlib

/-!
Verification development for the encoder–decoder Transformer and its
incremental-decode state machine of `models/transformer_other.py`.

Modelling conventions.
* One batch element is modelled (batch elements of the source never interact
  except through their own masks), with the batch axis dropped.
* A tensor slice `[ninp, hid]` is a `List (Vec d)`: the time axis is a list,
  the feature axis a function `Fin d → ℝ`.
* Machine floats are modelled as real numbers, with one exception recorded at
  `uexp`: the softmax of logits carrying the `ATTN_BIAS_VALUE = -1e9` additive
  mask bias is modelled with the bias suppressing a masked position exactly
  (`exp (s - 1e9)` underflows to `0.0` in `float32`; the spec calls the bias
  "a large negative constant (effectively −∞)").
* Code of the repository that is outside `src/` (`lib.layers`,
  `lib.tensor_utils`) is modelled from the spec; every such definition carries
  a doc comment starting with `Modelled from the spec:`.
* `tf.random_uniform` draws are passed in as explicit arguments (`randOff`),
  and the dropout scope `is_train` is an `Option Noise`: `none` is inference
  mode (every `if is_dropout_enabled():` site skipped), `some f` is training
  mode carrying the dropout randomness.
-/

set_option maxHeartbeats 1600000

namespace TF

noncomputable section

/-- Feature vector of width `d`: the activations of one time position. -/
abbrev Vec (d : ℕ) : Type := Fin d → ℝ

/-- Time-major sequence of feature vectors (one batch element of a
`[batch, time, d]` tensor). -/
abbrev Seq (d : ℕ) : Type := List (Vec d)

/-- The all-zero feature vector. -/
def vzero (d : ℕ) : Vec d := fun _ => 0

/-- Modelled from the spec: `tf.nn.dropout`'s randomness, an elementwise
random transformation taking the keep probability and a value.  Every claim
below runs in inference mode, where the source skips the dropout call
entirely, so the enabled-mode behaviour is kept abstract. -/
abbrev Noise : Type := ℝ → ℝ → ℝ

/-- Modelled from the spec: the dropout scope (`lib.layers.dropout_scope` /
`is_dropout_enabled`).  `none` is inference mode, `some f` training mode with
its dropout randomness `f`. -/
abbrev TrainCtx : Type := Option Noise

/-- One `if is_dropout_enabled(): x = tf.nn.dropout(x, 1.0 - rate)` site,
scalar form. -/
def dropS (tr : TrainCtx) (rate x : ℝ) : ℝ :=
  match tr with
  | none => x
  | some f => f (1 - rate) x

/-- Dropout site applied to one feature vector. -/
def dropVec {d : ℕ} (tr : TrainCtx) (rate : ℝ) (x : Vec d) : Vec d :=
  match tr with
  | none => x
  | some f => fun i => f (1 - rate) (x i)

/-- Dropout site applied to a whole sequence. -/
def dropSeq {d : ℕ} (tr : TrainCtx) (rate : ℝ) (xs : Seq d) : Seq d :=
  match tr with
  | none => xs
  | some f => xs.map fun v i => f (1 - rate) (v i)

/-- Modelled from the spec: `lib.layers.Dense`, an affine projection with an
optional activation (`activation=lambda x: x` sites use `id`,
the FFN first layer uses `relu`).  `W : [inp, out]`, as in the source. -/
structure Dense (a b : ℕ) where
  W : Fin a → Fin b → ℝ
  bias : Fin b → ℝ
  act : ℝ → ℝ

/-- Apply a `Dense` to one position. -/
def Dense.app {a b : ℕ} (L : Dense a b) (x : Vec a) : Vec b :=
  fun j => L.act (∑ i, x i * L.W i j + L.bias j)

/-- `tf.nn.relu`. -/
def relu (x : ℝ) : ℝ := max x 0

/-- The two projection layouts of `MultiHeadAttn.__init__`:
`'use_kv'` materialises `query_conv` and `kv_conv` and derives
`combined_conv` by concatenating their weights;
`'combined'` materialises `combined_conv` (old name `mem_conv`) and derives
`query_conv`/`kv_conv` as column slices of its weight matrix. -/
inductive MHAWeights (inp kd vd : ℕ) where
  | useKv (Wq : Fin inp → Fin kd → ℝ) (bq : Vec kd)
      (Wkv : Fin inp → Fin (kd + vd) → ℝ) (bkv : Vec (kd + vd))
  | combined (Wc : Fin inp → Fin (kd + (kd + vd)) → ℝ) (bc : Vec (kd + (kd + vd)))

/-- `self.query_conv`: materialised directly in `'use_kv'` format, a column
slice `W[:, :key_depth]` of the combined matrix in `'combined'` format. -/
def MHAWeights.queryConv {inp kd vd : ℕ} : MHAWeights inp kd vd → Dense inp kd
  | .useKv Wq bq _ _ => ⟨Wq, bq, fun x => x⟩
  | .combined Wc bc =>
      ⟨fun i j => Wc i (Fin.castAdd (kd + vd) j),
       fun j => bc (Fin.castAdd (kd + vd) j), fun x => x⟩

/-- `self.kv_conv`: materialised directly in `'use_kv'` format (`mem_conv`),
a column slice `W[:, key_depth:]` of the combined matrix in `'combined'`
format. -/
def MHAWeights.kvConv {inp kd vd : ℕ} : MHAWeights inp kd vd → Dense inp (kd + vd)
  | .useKv _ _ Wkv bkv => ⟨Wkv, bkv, fun x => x⟩
  | .combined Wc bc =>
      ⟨fun i j => Wc i (Fin.natAdd kd j),
       fun j => bc (Fin.natAdd kd j), fun x => x⟩

/-- `self.combined_conv`: materialised directly in `'combined'` format, the
column concatenation `concat([query_conv.W, kv_conv.W], axis=1)` in
`'use_kv'` format. -/
def MHAWeights.combinedConv {inp kd vd : ℕ} :
    MHAWeights inp kd vd → Dense inp (kd + (kd + vd))
  | .useKv Wq bq Wkv bkv =>
      ⟨fun i => Fin.append (Wq i) (Wkv i), Fin.append bq bkv, fun x => x⟩
  | .combined Wc bc => ⟨Wc, bc, fun x => x⟩

/-- Parameters of one `MultiHeadAttn` unit. -/
structure MHAP (inp kd vd od nh : ℕ) where
  w : MHAWeights inp kd vd
  outConv : Dense vd od
  attnDrop : ℝ
  attnValueDrop : ℝ

/-- `MultiHeadAttn.ATTN_BIAS_VALUE = -1e9`. -/
def ATTN_BIAS_VALUE : ℝ := -(10 ^ 9)

/-- The exponential inside `tf.nn.softmax` applied to a logit whose mask
value is `m`.  An unmasked entry (`m ≠ 0`) keeps the exact exponential; a
masked entry carries the additive `ATTN_BIAS_VALUE * (1 - m) = -1e9` bias, and
`exp (s - 1e9)` is exactly `0.0` in `float32` — the spec's "large negative
constant (effectively −∞)" — which this definition reproduces. -/
def uexp (m l : ℝ) : ℝ := if m = 0 then 0 else Real.exp l

/-- Index of head `a`, component `i`, inside a depth-`kd` feature axis split
into `nh` heads of `kd / nh` components (`_split_heads`). -/
def headIx {kd nh : ℕ} (a : Fin nh) (i : Fin (kd / nh)) : Fin kd :=
  ⟨a.val * (kd / nh) + i.val, by
    have h1 : a.val * (kd / nh) + i.val < (a.val + 1) * (kd / nh) := by
      have := i.isLt
      calc a.val * (kd / nh) + i.val < a.val * (kd / nh) + (kd / nh) := by omega
        _ = (a.val + 1) * (kd / nh) := by ring
    have h2 : (a.val + 1) * (kd / nh) ≤ nh * (kd / nh) :=
      Nat.mul_le_mul_right _ a.isLt
    have h3 : nh * (kd / nh) ≤ kd := by
      rw [Nat.mul_comm]; exact Nat.div_mul_le_self kd nh
    omega⟩

/-- First `kd` components of a key/value row: the `k` part of
`tf.split(kv, [key_depth, value_depth], axis=2)`. -/
def kPart {kd vd : ℕ} (x : Vec (kd + vd)) : Vec kd :=
  fun i => x (Fin.castAdd vd i)

/-- Last `vd` components of a key/value row: the `v` part of the split. -/
def vPart {kd vd : ℕ} (x : Vec (kd + vd)) : Vec vd :=
  fun i => x (Fin.natAdd kd i)

/-- First `kd` components of a combined `[q | k | v]` row: the `q` part of
`tf.split(combined, [key_depth, key_depth, value_depth], axis=2)`. -/
def qSlice {kd vd : ℕ} (x : Vec (kd + (kd + vd))) : Vec kd :=
  fun j => x (Fin.castAdd (kd + vd) j)

/-- Last `kd + vd` components of a combined row: its `[k | v]` part. -/
def kvSlice {kd vd : ℕ} (x : Vec (kd + (kd + vd))) : Vec (kd + vd) :=
  fun j => x (Fin.natAdd kd j)

/-- Attention logit of head `a` for key position `j`:
the scaled dot product `(q / sqrt(key_depth / num_heads)) · k_j` plus the
additive mask bias `ATTN_BIAS_VALUE * (1 - mask_j)` (lines 149–157). -/
def attnLogit {kd vd nh : ℕ} (q : Vec kd) (kvs : Seq (kd + vd))
    (m : ℕ → ℝ) (a : Fin nh) (j : ℕ) : ℝ :=
  (∑ i : Fin (kd / nh),
      q (headIx a i) / Real.sqrt ((kd : ℝ) / (nh : ℝ)) *
        kPart (kvs.getD j (vzero _)) (headIx a i)) +
    ATTN_BIAS_VALUE * (1 - m j)

/-- Softmax weight of head `a`, key `j` (`weights = tf.nn.softmax(logits)`,
with the masked exponentials underflowing per `uexp`). -/
def attnW {kd vd nh : ℕ} (q : Vec kd) (kvs : Seq (kd + vd))
    (m : ℕ → ℝ) (a : Fin nh) (j : ℕ) : ℝ :=
  uexp (m j) (attnLogit q kvs m a j) /
    ∑ j' ∈ Finset.range kvs.length, uexp (m j') (attnLogit q kvs m a j')

/-- `_combine_heads`: reassemble per-head components into one depth-`vd`
row (inverse of `_split_heads`; junk components are zero when `nh ∤ vd`,
a configuration the constructor rejects). -/
def combineHeads {vd nh : ℕ} (f : Fin nh → Fin (vd / nh) → ℝ) : Vec vd :=
  fun c =>
    if hc : c.val / (vd / nh) < nh ∧ c.val % (vd / nh) < vd / nh then
      f ⟨c.val / (vd / nh), hc.1⟩ ⟨c.val % (vd / nh), hc.2⟩
    else 0

/-- Scaled dot-product attention for one query over a key/value sequence:
per-head softmax-weighted value sum, heads recombined, attention-weight
dropout applied between softmax and the value matmul (lines 158–166). -/
def attnOne {kd vd nh : ℕ} (tr : TrainCtx) (adrop : ℝ) (q : Vec kd)
    (kvs : Seq (kd + vd)) (m : ℕ → ℝ) : Vec vd :=
  combineHeads fun (a : Fin nh) (i : Fin (vd / nh)) =>
    ∑ j ∈ Finset.range kvs.length,
      dropS tr adrop (attnW q kvs m a j) *
        vPart (kvs.getD j (vzero _)) (headIx a i)

/-- One full query row of `MultiHeadAttn.__call__`: attention context,
attention-value dropout, output projection. -/
def mhaOne {inp kd vd od nh : ℕ} (tr : TrainCtx) (p : MHAP inp kd vd od nh)
    (q : Vec kd) (kvs : Seq (kd + vd)) (m : ℕ → ℝ) : Vec od :=
  p.outConv.app (dropVec tr p.attnValueDrop (@attnOne kd vd nh tr p.attnDrop q kvs m))

/-- The three key/value sources of `MultiHeadAttn.__call__`:
self-attention from `query_inp` alone (combined projection), a
`kv_inp` sequence projected through `kv_conv`, or an externally cached `kv`
tensor. -/
inductive KVSrc (inp kd vd : ℕ) where
  | selfSame
  | fromSeq (kvi : Seq inp)
  | cached (kv : Seq (kd + vd))

/-- The list `[f 0, …, f (n-1)]`: one output row per query position. -/
def rowsOf {α : Type} (f : ℕ → α) (n : ℕ) : List α := (List.range n).map f

/-- `MultiHeadAttn.__call__` over a query sequence.  With `kv`/`kv_inp`
supplied, `q = query_conv(query_inp)`; with neither, `q, k, v` are the
`[key_depth, key_depth, value_depth]` split of `combined_conv(query_inp)`.
`mask t j` is the attention mask entry for query `t`, key `j`. -/
def mhaRun {inp kd vd od nh : ℕ} (tr : TrainCtx) (p : MHAP inp kd vd od nh)
    (mask : ℕ → ℕ → ℝ) (qInp : Seq inp) (src : KVSrc inp kd vd) : Seq od :=
  match src with
  | .cached kv =>
      rowsOf (fun t => mhaOne tr p (p.w.queryConv.app (qInp.getD t (vzero _))) kv (mask t))
        qInp.length
  | .fromSeq kvi =>
      rowsOf
        (fun t =>
          mhaOne tr p (p.w.queryConv.app (qInp.getD t (vzero _)))
            (kvi.map p.w.kvConv.app) (mask t))
        qInp.length
  | .selfSame =>
      rowsOf
        (fun t =>
          mhaOne tr p (qSlice ((qInp.map p.w.combinedConv.app).getD t (vzero _)))
            ((qInp.map p.w.combinedConv.app).map kvSlice) (mask t))
        qInp.length

/-- Modelled from the spec: `lib.layers.ResidualLayerWrapper` with the shipped
step string `res_steps='ldan'` — pre-normalize, inner call, dropout on the
inner output, residual add of the original input, post-normalize.  The two
normalisations are kept as abstract per-position maps (the spec fixes no
LayerNorm formula), which is all the claims need: they are position-wise. -/
structure ResWrap (d : ℕ) where
  preN : Vec d → Vec d
  postN : Vec d → Vec d
  rate : ℝ

/-- Position-wise sum of two sequences. -/
def zipAdd {d : ℕ} (xs ys : Seq d) : Seq d := List.zipWith (· + ·) xs ys

/-- Run a wrapped sub-layer: `postN (x + dropout (inner (preN x)))`,
all steps but `inner` position-wise. -/
def ResWrap.run {d : ℕ} (w : ResWrap d) (tr : TrainCtx)
    (inner : Seq d → Seq d) (x : Seq d) : Seq d :=
  (zipAdd x (dropSeq tr w.rate (inner (x.map w.preN)))).map w.postN

/-- `ResidualLayerWrapper.preprocess`: apply only the pre-normalize step. -/
def ResWrap.preprocess {d : ℕ} (w : ResWrap d) (x : Seq d) : Seq d :=
  x.map w.preN

/-- Parameters of one `FFN` block (two `Dense` layers; `conv1` carries the
relu activation in its `act` field, as in the source constructor). -/
structure FFNP (d f : ℕ) where
  conv1 : Dense d f
  conv2 : Dense f d
  reluDrop : ℝ

/-- `FFN.__call__` at one position: first conv, relu-dropout site, second
conv.  Purely position-wise. -/
def FFNP.app {d f : ℕ} (P : FFNP d f) (tr : TrainCtx) (x : Vec d) : Vec d :=
  P.conv2.app (dropVec tr P.reluDrop (P.conv1.app x))

/-- One row of the sinusoidal timing signal of `_add_timing_signal`
(lines 480–490): for `hid/2` timescales logarithmically spaced from
`min_timescale` to `max_timescale`, the sines, then the cosines, then a zero
pad column when `hid` is odd. -/
def sigRow (d : ℕ) (mn mx : ℝ) (pos : ℝ) : Vec d := fun c =>
  let nts : ℕ := d / 2
  let inc : ℝ := Real.log (mx / mn) / ((nts : ℝ) - 1)
  if c.val < nts then
    Real.sin (pos * (mn * Real.exp ((c.val : ℝ) * -inc)))
  else if c.val < nts + nts then
    Real.cos (pos * (mn * Real.exp (((c.val - nts : ℕ) : ℝ) * -inc)))
  else 0

/-- Add the timing signal with an absolute-position function `posF`, starting
at time index `t0`. -/
def withTiming {d : ℕ} (mn mx : ℝ) (posF : ℕ → ℝ) : ℕ → Seq d → Seq d
  | _, [] => []
  | t0, x :: xs => (x + sigRow d mn mx (posF t0)) :: withTiming mn mx posF (t0 + 1) xs

/-- The per-sequence reverse multiplier of `_add_timing_signal`:
`1` when `inp_reverse` is absent or `0`, `-1` otherwise. -/
def revMul (r : Option ℝ) : ℝ :=
  match r with
  | none => 1
  | some x => if x = 0 then 1 else -1

/-- `Transformer._add_timing_signal`: position of row `t` is
`(t + offset t) * revMul`, and `inp + signal` is returned.  `offF` is the
per-position offset (a constant function for the scalar offsets of the
source; per-position for the `'random'` training draw). -/
def addTiming {d : ℕ} (mn mx : ℝ) (offF : ℕ → ℝ) (r : Option ℝ) (xs : Seq d) : Seq d :=
  withTiming mn mx (fun t => ((t : ℝ) + offF t) * revMul r) 0 xs

/-- `Transformer._make_enc_attn_mask` as an index function: key `k` of a
sequence of valid length `inpLen` is attendable iff `k < inpLen`
(`tf.sequence_mask`). -/
def makeEncAttnMask (inpLen k : ℕ) : ℝ := if k < inpLen then 1 else 0

/-- `Transformer._make_dec_attn_mask` as an index function: the
lower-triangular causal mask, `1` iff key `k ≤ query `q`
(`tf.matrix_band_part(ones, -1, 0)`). -/
def makeDecAttnMask (q k : ℕ) : ℝ := if k ≤ q then 1 else 0

/-- One encoder layer: wrapped self-attention, then wrapped FFN. -/
structure EncLayer (d kd vd nh f : ℕ) where
  attnWrap : ResWrap d
  attn : MHAP d kd vd d nh
  ffnWrap : ResWrap d
  ffn : FFNP d f

/-- One decoder layer: wrapped masked self-attention, wrapped
encoder-cross-attention (`'use_kv'` or `'combined'` format per
`multihead_attn_format`), wrapped FFN. -/
structure DecLayer (d kd vd nh f : ℕ) where
  selfWrap : ResWrap d
  selfAttn : MHAP d kd vd d nh
  crossWrap : ResWrap d
  crossAttn : MHAP d kd vd d nh
  ffnWrap : ResWrap d
  ffn : FFNP d f

/-- Parameters of one `Transformer` (constructed weights; `emb_size` equals
`hid_size = d`, the constructor's default — the `'ldan'` residual wrappers
contain a residual add, which requires matching input/output sizes). -/
structure Xfmr (d kd vd nh f : ℕ) where
  embInp : ℕ → Vec d
  embOut : ℕ → Vec d
  embInpBias : Vec d
  rescaleEmb : Bool
  dstRandOffset : Bool
  normalizeOut : Bool
  resDrop : ℝ
  encL : List (EncLayer d kd vd nh f)
  decL : List (DecLayer d kd vd nh f)
  encOutNorm : Vec d → Vec d
  decOutNorm : Vec d → Vec d

/-- `emb *= emb_size ** .5` when `rescale_emb` is set. -/
def scaleIf {d : ℕ} (b : Bool) (v : Vec d) : Vec d :=
  match b with
  | true => fun i => v i * Real.sqrt (d : ℝ)
  | false => v

/-- The embedding of one target token as the decoder uses it
(`emb_out`, rescaled when `rescale_emb`). -/
def embScaledOut {d kd vd nh f : ℕ} (T : Xfmr d kd vd nh f) (w : ℕ) : Vec d :=
  scaleIf T.rescaleEmb (T.embOut w)

/-- One encoder layer application (body of the `for layer in range(...)`
loop of `Transformer.encode`). -/
def encStep {d kd vd nh f : ℕ} (tr : TrainCtx) (em : ℕ → ℝ)
    (L : EncLayer d kd vd nh f) (x : Seq d) : Seq d :=
  L.ffnWrap.run tr (fun qs => qs.map (L.ffn.app tr))
    (L.attnWrap.run tr (fun qs => mhaRun tr L.attn (fun _ k => em k) qs .selfSame) x)

/-- The encoder layer stack. -/
def encStack {d kd vd nh f : ℕ} (tr : TrainCtx) (em : ℕ → ℝ) :
    List (EncLayer d kd vd nh f) → Seq d → Seq d
  | [], x => x
  | L :: Ls, x => encStack tr em Ls (encStep tr em L x)

/-- `Transformer.encode`: embed, rescale, input bias, padding mask, timing
signal at offset 0, dropout, the layer stack, optional output norm.
Returns `(enc_out, enc_attn_mask)`. -/
def Xfmr.encode {d kd vd nh f : ℕ} (T : Xfmr d kd vd nh f) (tr : TrainCtx)
    (inp : List ℕ) (inpLen : ℕ) : Seq d × (ℕ → ℝ) :=
  let emb := inp.map fun w => scaleIf T.rescaleEmb (T.embInp w) + T.embInpBias
  let em := makeEncAttnMask inpLen
  let x0 := dropSeq tr T.resDrop (addTiming 1 (10 ^ 4) (fun _ => 0) none emb)
  let y := encStack tr em T.encL x0
  (match T.normalizeOut with
   | true => y.map T.encOutNorm
   | false => y, em)

/-- `emb_out = tf.pad(emb_out, [[0,0],[1,0],[0,0]])[:, :-1, :]`: shift the
embedded targets one position right, a zero embedding entering at position 0
and the last embedding dropped. -/
def shiftRight {d : ℕ} (xs : Seq d) : Seq d := (vzero d :: xs).dropLast

/-- The zero-decoder-layer bypass vector (lines 404–406 / 616–618, batch
size 1): `reduce_mean(enc_out * inp_mask, axis=[0,1])` after the broadcast of
`enc_out[1, n, hid]` against `inp_mask[n, 1, 1]` forms an `[n, n, hid]`
tensor, so the mean is `(Σ_a mask a) * (Σ_t enc_out t) / n²`. -/
def bypassVec {d : ℕ} (encOut : Seq d) (em : ℕ → ℝ) : Vec d :=
  fun i =>
    (∑ a ∈ Finset.range encOut.length, em a) *
        (∑ t ∈ Finset.range encOut.length, encOut.getD t (vzero d) i) /
      ((encOut.length : ℝ) * (encOut.length : ℝ))

/-- One decoder layer application (body of the batch-path decoder loop):
masked self-attention (combined projection), cross-attention with
`kv_inp = enc_out`, FFN. -/
def decStep {d kd vd nh f : ℕ} (tr : TrainCtx) (em : ℕ → ℝ) (encOut : Seq d)
    (mask2 : ℕ → ℕ → ℝ) (L : DecLayer d kd vd nh f) (x : Seq d) : Seq d :=
  L.ffnWrap.run tr (fun qs => qs.map (L.ffn.app tr))
    (L.crossWrap.run tr (fun qs => mhaRun tr L.crossAttn (fun _ k => em k) qs (.fromSeq encOut))
      (L.selfWrap.run tr (fun qs => mhaRun tr L.selfAttn mask2 qs .selfSame) x))

/-- The batch-path decoder layer stack. -/
def decStack {d kd vd nh f : ℕ} (tr : TrainCtx) (em : ℕ → ℝ) (encOut : Seq d)
    (mask2 : ℕ → ℕ → ℝ) : List (DecLayer d kd vd nh f) → Seq d → Seq d
  | [], x => x
  | L :: Ls, x => decStack tr em encOut mask2 Ls (decStep tr em encOut mask2 L x)

/-- `Transformer.decode`, the batch/training path: embed targets, shift
right, causal mask, timing signal (offset 0 or the per-position random
draw `randOffF` when `dst_rand_offset`), dropout, zero-layer bypass, layer
stack, optional output norm.  `outLen` is accepted and ignored, as in the
source. -/
def Xfmr.decodeB {d kd vd nh f : ℕ} (T : Xfmr d kd vd nh f) (tr : TrainCtx)
    (out : List ℕ) (outLen : ℕ) (outRev : Option ℝ) (randOffF : ℕ → ℝ)
    (encOut : Seq d) (em : ℕ → ℝ) : Seq d :=
  let _ := outLen
  let emb := shiftRight (out.map (embScaledOut T))
  let offF : ℕ → ℝ := match T.dstRandOffset with
    | true => randOffF
    | false => fun _ => 0
  let x0 := dropSeq tr T.resDrop (addTiming 1 (10 ^ 4) offF outRev emb)
  let x1 := match T.decL with
    | [] => x0.map fun v => v + bypassVec encOut em
    | _ :: _ => x0
  let y := decStack tr em encOut makeDecAttnMask T.decL x1
  match T.normalizeOut with
  | true => y.map T.decOutNorm
  | false => y

/-- Modelled from the spec: `lib.tensor_utils.infer_length` — the valid
length of a sequence, derived by scanning for the end-of-sequence id
(position of the first `eos`, inclusive; the full length when absent). -/
def inferLength (eos : ℕ) (xs : List ℕ) : ℕ :=
  let i := xs.findIdx (· = eos)
  if i < xs.length then i + 1 else xs.length

/-- The full translation model: a `Transformer`, the `logits` output
projection and the two vocabularies' end-of-sequence ids. -/
structure Model (d kd vd nh f nOut : ℕ) where
  T : Xfmr d kd vd nh f
  logits : Dense d nOut
  inpEos : ℕ
  outEos : ℕ

/-- `Model.DecState` (`transformer_state`): the incremental decoding
snapshot. -/
structure DecState (d kd vd : ℕ) where
  encOut : Seq d
  encAttnMask : ℕ → ℝ
  attnP : List ℝ
  rdo : Vec d
  outSeq : List ℕ
  offset : ℝ
  emb : Seq d
  decLayers : List (Seq d)
  decEncKv : List (Seq (kd + vd))
  decDecKv : List (Seq (kd + vd))

/-- One decoder layer of the incremental path: self-attention of the new
query row against the grown cache `newKv`, cross-attention against the
frozen cache `encKv`, FFN. -/
def decLayerStepI {d kd vd nh f : ℕ} (tr : TrainCtx) (em : ℕ → ℝ) (mrow : ℕ → ℝ)
    (L : DecLayer d kd vd nh f) (newKv encKv : Seq (kd + vd)) (x : Seq d) : Seq d :=
  L.ffnWrap.run tr (fun qs => qs.map (L.ffn.app tr))
    (L.crossWrap.run tr (fun qs => mhaRun tr L.crossAttn (fun _ k => em k) qs (.cached encKv))
      (L.selfWrap.run tr (fun qs => mhaRun tr L.selfAttn (fun _ k => mrow k) qs (.cached newKv)) x))

/-- The per-layer loop of `Model.decode` (lines 625–639): for each decoder
layer, project this step's key/value from the preprocessed layer input,
concatenate it onto the layer's self-attention cache, run the layer, and
record the layer activation onto the activation cache.  Returns the final
single-row activation, the grown activation caches and the grown
self-attention caches. -/
def decodeLoop {d kd vd nh f : ℕ} (tr : TrainCtx) (em : ℕ → ℝ) (mrow : ℕ → ℝ) :
    List (DecLayer d kd vd nh f) → List (Seq d) → List (Seq (kd + vd)) →
      List (Seq (kd + vd)) → Seq d → Seq d × List (Seq d) × List (Seq (kd + vd))
  | [], _, _, _, x => (x, [], [])
  | L :: Ls, prevLs, prevEKs, prevDKs, x =>
      let nextKv := (L.selfWrap.preprocess x).map L.selfAttn.w.kvConv.app
      let newKv := prevDKs.headD [] ++ nextKv
      let x3 := decLayerStepI tr em mrow L newKv (prevEKs.headD []) x
      let rest := decodeLoop tr em mrow Ls prevLs.tail prevEKs.tail prevDKs.tail x3
      (rest.1, (prevLs.headD [] ++ x3) :: rest.2.1, newKv :: rest.2.2)

/-- The output sequence after one decode call: `words` appended when
given. -/
def decodedOutSeq {d kd vd : ℕ} (s : DecState d kd vd) (words : Option ℕ) : List ℕ :=
  match words with
  | none => s.outSeq
  | some w => s.outSeq ++ [w]

/-- The single new decoder input row of `Model.decode` (lines 600–618):
embedded token (or the zero embedding on the initial step), timing signal at
the state's offset, dropout, and the zero-decoder-layer bypass. -/
def decodeInput {d kd vd nh f nOut : ℕ} (M : Model d kd vd nh f nOut)
    (tr : TrainCtx) (s : DecState d kd vd) (words : Option ℕ) : Seq d :=
  let embRow : Vec d := match words with
    | none => vzero d
    | some w => embScaledOut M.T w
  let dt0 := dropSeq tr M.T.resDrop
    (addTiming 1 (10 ^ 4) (fun _ => s.offset) none [embRow])
  match M.T.decL with
  | [] => dt0.map fun v => v + bypassVec s.encOut s.encAttnMask
  | _ :: _ => dt0

/-- `Model.decode`: append `words` to the output sequence (when given), form
the new input row (`decodeInput`), run the per-layer cached loop under the
last row of the `(len+1)`-triangle causal mask, optional output norm, and
rebuild the state with offset advanced by 1. -/
def Model.decode {d kd vd nh f nOut : ℕ} (M : Model d kd vd nh f nOut)
    (tr : TrainCtx) (s : DecState d kd vd) (words : Option ℕ) : DecState d kd vd :=
  let outSeq := decodedOutSeq s words
  let dt := decodeInput M tr s words
  let res := decodeLoop tr s.encAttnMask (fun k => makeDecAttnMask outSeq.length k)
    M.T.decL s.decLayers s.decEncKv s.decDecKv dt
  { encOut := s.encOut
    encAttnMask := s.encAttnMask
    attnP := s.attnP
    rdo := (match M.T.normalizeOut with
      | true => res.1.map M.T.decOutNorm
      | false => res.1).getLastD (vzero d)
    outSeq := outSeq
    offset := s.offset + 1
    emb := s.emb ++ dt
    decLayers := res.2.1
    decEncKv := s.decEncKv
    decDecKv := res.2.2 }

/-- `Model.encode`: run the encoder (with dropout scope hardcoded off, line
545), build the initial state with empty output sequence and empty per-layer
caches, precompute the frozen cross-attention caches `kv_conv(enc_out)` for
every decoder layer, draw the random offset when `dst_rand_offset`, and
perform the initial decode step with no input token.  `randOff` is the
`tf.random_uniform` draw; `inpLenOpt` is the optional `inp_len` batch
entry. -/
def Model.encode {d kd vd nh f nOut : ℕ} (M : Model d kd vd nh f nOut)
    (tr : TrainCtx) (randOff : ℝ) (inp : List ℕ) (inpLenOpt : Option ℕ) :
    DecState d kd vd :=
  let inpLen := inpLenOpt.getD (inferLength M.inpEos inp)
  let r := M.T.encode none inp inpLen
  let offset : ℝ := match M.T.dstRandOffset with
    | true => 0 + randOff
    | false => 0
  let s0 : DecState d kd vd :=
    { encOut := r.1
      encAttnMask := r.2
      attnP := List.replicate inp.length (1 / (inpLen : ℝ))
      rdo := vzero d
      outSeq := []
      offset := offset
      emb := []
      decLayers := M.T.decL.map fun _ => []
      decEncKv := M.T.decL.map fun L => r.1.map L.crossAttn.w.kvConv.app
      decDecKv := M.T.decL.map fun L =>
        (L.selfWrap.preprocess []).map L.selfAttn.w.kvConv.app }
  M.decode tr s0 none

/-- `Model.get_logits`: the output projection applied to the read-out
representation. -/
def Model.getLogits {d kd vd nh f nOut : ℕ} (M : Model d kd vd nh f nOut)
    (s : DecState d kd vd) : Vec nOut :=
  M.logits.app s.rdo

/-- `Model.symbolic_score`, the training-path scorer: infer both lengths,
run the batch encoder and the batch decoder (`out_reverse = zeros`), and map
the `logits` projection over the decoder output. -/
def Model.symbolicScore {d kd vd nh f nOut : ℕ} (M : Model d kd vd nh f nOut)
    (tr : TrainCtx) (randOffF : ℕ → ℝ) (inp out : List ℕ) : Seq nOut :=
  let inpLen := inferLength M.inpEos inp
  let outLen := inferLength M.outEos out
  let r := M.T.encode tr inp inpLen
  let rdo := M.T.decodeB tr out outLen (some 0) randOffF r.1 r.2
  rdo.map M.logits.app

/-- Iterated `Model.decode`, one call per token of `ws`. -/
def Model.decodeSteps {d kd vd nh f nOut : ℕ} (M : Model d kd vd nh f nOut)
    (tr : TrainCtx) (s : DecState d kd vd) (ws : List ℕ) : DecState d kd vd :=
  ws.foldl (fun st w => M.decode tr st (some w)) s

/-- The size-affecting keyword arguments of `Transformer.__init__`
(`None`-able sizes are `Option ℕ`). -/
structure RawHp where
  hidSize : ℕ
  embSize : Option ℕ
  keySize : Option ℕ
  valueSize : Option ℕ
  numHeads : ℕ
  numLayers : ℕ

/-- The effective sizes after defaulting (`emb_size = emb_size if emb_size
else hid_size`, and likewise for key/value). -/
structure EffSizes where
  embSize : ℕ
  keySize : ℕ
  valueSize : ℕ

/-- The size validation of `Transformer.__init__` (lines 225–231): default
the sizes, then raise `Bad number of heads` if the key or value size is not
divisible by `num_heads`.  The check precedes every layer construction: an
`error` result means no attention unit (and no tensor) is ever built. -/
def validateHp (hp : RawHp) : Except String EffSizes :=
  let emb := hp.embSize.getD hp.hidSize
  let key := hp.keySize.getD hp.hidSize
  let val := hp.valueSize.getD hp.hidSize
  if key % hp.numHeads ≠ 0 then .error "Bad number of heads"
  else if val % hp.numHeads ≠ 0 then .error "Bad number of heads"
  else .ok ⟨emb, key, val⟩

/-! ### Batch-path traces (specification scaffolding for the incremental
invariant; assembled from the source-derived pieces above) -/

/-- Per-layer outputs of the batch decoder stack: entry `l` is the
activation sequence after layer `l`. -/
def decOuts {d kd vd nh f : ℕ} (tr : TrainCtx) (em : ℕ → ℝ) (encOut : Seq d)
    (mask2 : ℕ → ℕ → ℝ) : List (DecLayer d kd vd nh f) → Seq d → List (Seq d)
  | [], _ => []
  | L :: Ls, x =>
      decStep tr em encOut mask2 L x ::
        decOuts tr em encOut mask2 Ls (decStep tr em encOut mask2 L x)

/-- Per-layer self-attention key/value projections of the batch decoder
stack: entry `l` is `kv_conv(preprocess(input of layer l))`, the contents the
incremental cache must reproduce. -/
def decTraceKv {d kd vd nh f : ℕ} (tr : TrainCtx) (em : ℕ → ℝ) (encOut : Seq d)
    (mask2 : ℕ → ℕ → ℝ) :
    List (DecLayer d kd vd nh f) → Seq d → List (Seq (kd + vd))
  | [], _ => []
  | L :: Ls, x =>
      (L.selfWrap.preprocess x).map L.selfAttn.w.kvConv.app ::
        decTraceKv tr em encOut mask2 Ls (decStep tr em encOut mask2 L x)

/-- The frozen per-layer cross-attention caches, `kv_conv(enc_out)` per
decoder layer. -/
def crossKvs {d kd vd nh f : ℕ} (Ls : List (DecLayer d kd vd nh f))
    (encOut : Seq d) : List (Seq (kd + vd)) :=
  Ls.map fun L => encOut.map L.crossAttn.w.kvConv.app

/-- The batch decoder input rows determined by the consumed target tokens
`ws`: the shifted embeddings `[0, emb ws₀, …]` with timing signal at offset
0 (`out_reverse = 0`, dropout off), plus the zero-decoder-layer bypass. -/
def decIn0 {d kd vd nh f : ℕ} (T : Xfmr d kd vd nh f) (encOut : Seq d)
    (em : ℕ → ℝ) (ws : List ℕ) : Seq d :=
  let x0 := addTiming 1 (10 ^ 4) (fun _ => 0) (some 0)
    (vzero d :: ws.map (embScaledOut T))
  match T.decL with
  | [] => x0.map fun v => v + bypassVec encOut em
  | _ :: _ => x0

/-- The state `Model.encode` builds before its initial internal decode step
(`new_state` of lines 574–575, with `inp_len` inferred): empty output
sequence, empty per-layer caches, frozen cross-attention caches. -/
def encInitState {d kd vd nh f nOut : ℕ} (M : Model d kd vd nh f nOut)
    (r : ℝ) (inp : List ℕ) : DecState d kd vd :=
  { encOut := (M.T.encode none inp (inferLength M.inpEos inp)).1
    encAttnMask := (M.T.encode none inp (inferLength M.inpEos inp)).2
    attnP := List.replicate inp.length (1 / ((inferLength M.inpEos inp : ℕ) : ℝ))
    rdo := vzero d
    outSeq := []
    offset := match M.T.dstRandOffset with
      | true => 0 + r
      | false => 0
    emb := []
    decLayers := M.T.decL.map fun _ => []
    decEncKv := M.T.decL.map fun L =>
      (M.T.encode none inp (inferLength M.inpEos inp)).1.map L.crossAttn.w.kvConv.app
    decDecKv := M.T.decL.map fun L =>
      (L.selfWrap.preprocess []).map L.selfAttn.w.kvConv.app }

/-! ### Concrete instances used by witnesses and counterexamples -/

/-- An all-zero affine projection. -/
def denseZ (a b : ℕ) : Dense a b := ⟨fun _ _ => 0, fun _ => 0, fun x => x⟩

/-- A concrete attention unit (combined format, zero weights). -/
def mhapZ : MHAP 1 1 1 1 1 :=
  ⟨.combined (fun _ _ => 0) (fun _ => 0), denseZ 1 1, 0, 0⟩

/-- A concrete residual wrapper with identity norms. -/
def wrapZ : ResWrap 1 := ⟨id, id, 0⟩

/-- A concrete FFN block. -/
def ffnpZ : FFNP 1 1 := ⟨⟨fun _ _ => 0, fun _ => 0, relu⟩, denseZ 1 1, 0⟩

/-- A concrete decoder layer. -/
def decLayerZ : DecLayer 1 1 1 1 1 := ⟨wrapZ, mhapZ, wrapZ, mhapZ, wrapZ, ffnpZ⟩

/-- A concrete transformer with `nL` copies of the zero decoder layer and the
given `dst_rand_offset` flag. -/
def xfmrZ (flag : Bool) (nL : ℕ) : Xfmr 1 1 1 1 1 :=
  ⟨fun _ => vzero 1, fun _ => vzero 1, vzero 1, false, flag, false, 0,
    [], List.replicate nL decLayerZ, id, id⟩

/-- Concrete model, no decoder layers, `dst_rand_offset` off. -/
def modelZ : Model 1 1 1 1 1 1 := ⟨xfmrZ false 0, denseZ 1 1, 0, 0⟩

/-- Concrete model, no decoder layers, `dst_rand_offset` ON. -/
def modelR : Model 1 1 1 1 1 1 := ⟨xfmrZ true 0, denseZ 1 1, 0, 0⟩

/-- Concrete model with one decoder layer, `dst_rand_offset` off. -/
def modelOne : Model 1 1 1 1 1 1 := ⟨xfmrZ false 1, denseZ 1 1, 0, 0⟩

/-- A concrete well-formed one-layer decode state (cache length =
out-sequence length + 1). -/
def stateOne : DecState 1 1 1 :=
  { encOut := []
    encAttnMask := fun _ => 0
    attnP := []
    rdo := vzero 1
    outSeq := []
    offset := 0
    emb := []
    decLayers := [[vzero 1]]
    decEncKv := [[]]
    decDecKv := [[vzero (1 + 1)]] }

/-! ### Basic lemmas -/

theorem withTiming_length {d : ℕ} (mn mx : ℝ) (posF : ℕ → ℝ) (t0 : ℕ) (xs : Seq d) :
    (withTiming mn mx posF t0 xs).length = xs.length := by
  induction xs generalizing t0 with
  | nil => rfl
  | cons x xs ih => simp [withTiming, ih]

theorem withTiming_getD {d : ℕ} (mn mx : ℝ) (posF : ℕ → ℝ) (xs : Seq d)
    (t0 j : ℕ) (hj : j < xs.length) :
    (withTiming mn mx posF t0 xs).getD j (vzero d) =
      xs.getD j (vzero d) + sigRow d mn mx (posF (t0 + j)) := by
  induction xs generalizing t0 j with
  | nil => simp at hj
  | cons x xs ih =>
      cases j with
      | zero => simp [withTiming]
      | succ j =>
          simp only [withTiming, List.getD_cons_succ]
          rw [ih _ _ (by simpa using hj)]
          ring_nf

theorem getD_dropLast {α : Type} (l : List α) (dflt : α) (j : ℕ)
    (h : j + 1 < l.length) : l.dropLast.getD j dflt = l.getD j dflt := by
  induction l generalizing j with
  | nil => simp at h
  | cons a l ih =>
      cases l with
      | nil => simp at h
      | cons b t =>
          cases j with
          | zero => simp [List.dropLast]
          | succ j =>
              simp only [List.dropLast, List.getD_cons_succ]
              exact ih j (by simpa using h)

theorem length_dropLast_cons {α : Type} (a : α) (l : List α) :
    (a :: l).dropLast.length = l.length := by
  simp

theorem headD_eq_getD_zero {α : Type} (l : List α) (dflt : α) :
    l.headD dflt = l.getD 0 dflt := by
  cases l <;> simp

theorem getD_tail {α : Type} (l : List α) (dflt : α) (j : ℕ) :
    l.tail.getD j dflt = l.getD (j + 1) dflt := by
  cases l <;> simp

theorem getD_map_lt {α β : Type} (g : α → β) (l : List α) (dfltA : α)
    (dflt : β) (j : ℕ) (hj : j < l.length) :
    (l.map g).getD j dflt = g (l.getD j dfltA) := by
  simp [List.getD_eq_getElem?_getD, List.getElem?_map, List.getElem?_eq_getElem hj]

/-! ### Length lemmas -/

theorem dropSeq_length {d : ℕ} (tr : TrainCtx) (rate : ℝ) (xs : Seq d) :
    (dropSeq tr rate xs).length = xs.length := by
  cases tr <;> simp [dropSeq]

theorem mhaRun_length {inp kd vd od nh : ℕ} (tr : TrainCtx)
    (p : MHAP inp kd vd od nh) (mask : ℕ → ℕ → ℝ) (qInp : Seq inp)
    (src : KVSrc inp kd vd) : (mhaRun tr p mask qInp src).length = qInp.length := by
  cases src <;> simp [mhaRun, rowsOf]

theorem run_length {d : ℕ} (w : ResWrap d) (tr : TrainCtx)
    (inner : Seq d → Seq d) (x : Seq d)
    (hin : (inner (x.map w.preN)).length = x.length) :
    (w.run tr inner x).length = x.length := by
  simp [ResWrap.run, zipAdd, dropSeq_length, hin]

theorem decLayerStepI_length {d kd vd nh f : ℕ} (tr : TrainCtx)
    (em mrow : ℕ → ℝ) (L : DecLayer d kd vd nh f)
    (newKv encKv : Seq (kd + vd)) (x : Seq d) :
    (decLayerStepI tr em mrow L newKv encKv x).length = x.length := by
  unfold decLayerStepI
  have h1 : (L.selfWrap.run tr
      (fun qs => mhaRun tr L.selfAttn (fun _ k => mrow k) qs (.cached newKv)) x).length
      = x.length := run_length _ _ _ _ (by simp [mhaRun_length])
  have h2 : (L.crossWrap.run tr
      (fun qs => mhaRun tr L.crossAttn (fun _ k => em k) qs (.cached encKv))
      (L.selfWrap.run tr
        (fun qs => mhaRun tr L.selfAttn (fun _ k => mrow k) qs (.cached newKv)) x)).length
      = x.length := by
    rw [run_length _ _ _ _ (by simp [mhaRun_length])]; exact h1
  rw [run_length _ _ _ _ (by simp [h2])]; exact h2

theorem decodeLoop_spec {d kd vd nh f : ℕ} (tr : TrainCtx) (em mrow : ℕ → ℝ)
    (Ls : List (DecLayer d kd vd nh f)) :
    ∀ (pLs : List (Seq d)) (pEK pDK : List (Seq (kd + vd))) (x : Seq d),
      (decodeLoop tr em mrow Ls pLs pEK pDK x).1.length = x.length ∧
        (decodeLoop tr em mrow Ls pLs pEK pDK x).2.1.length = Ls.length ∧
        (decodeLoop tr em mrow Ls pLs pEK pDK x).2.2.length = Ls.length ∧
        (∀ l, l < Ls.length →
          ((decodeLoop tr em mrow Ls pLs pEK pDK x).2.1.getD l []).length =
            (pLs.getD l []).length + x.length) ∧
        (∀ l, l < Ls.length →
          ((decodeLoop tr em mrow Ls pLs pEK pDK x).2.2.getD l []).length =
            (pDK.getD l []).length + x.length) := by
  induction Ls with
  | nil =>
      intro pLs pEK pDK x
      exact ⟨rfl, rfl, rfl, by intro l hl; simp at hl, by intro l hl; simp at hl⟩
  | cons L Ls ih =>
      intro pLs pEK pDK x
      obtain ⟨ih1, ih2, ih3, ih4, ih5⟩ := ih pLs.tail pEK.tail pDK.tail
        (decLayerStepI tr em mrow L
          (pDK.headD [] ++ (L.selfWrap.preprocess x).map L.selfAttn.w.kvConv.app)
          (pEK.headD []) x)
      simp only [decodeLoop]
      refine ⟨?_, ?_, ?_, ?_, ?_⟩
      · rw [ih1, decLayerStepI_length]
      · simp only [List.length_cons]
        rw [ih2]
      · simp only [List.length_cons]
        rw [ih3]
      · intro l hl
        cases l with
        | zero =>
            simp only [List.getD_cons_zero, List.length_append]
            rw [headD_eq_getD_zero, decLayerStepI_length]
        | succ l =>
            simp only [List.getD_cons_succ]
            rw [ih4 l (by simpa using hl), getD_tail, decLayerStepI_length]
      · intro l hl
        cases l with
        | zero =>
            simp only [List.getD_cons_zero, List.length_append]
            rw [headD_eq_getD_zero]
            simp [ResWrap.preprocess]
        | succ l =>
            simp only [List.getD_cons_succ]
            rw [ih5 l (by simpa using hl), getD_tail, decLayerStepI_length]

theorem decodeInput_length {d kd vd nh f nOut : ℕ} (M : Model d kd vd nh f nOut)
    (tr : TrainCtx) (s : DecState d kd vd) (w : Option ℕ) :
    (decodeInput M tr s w).length = 1 := by
  unfold decodeInput addTiming
  cases M.T.decL <;> simp [dropSeq_length, withTiming_length]

theorem encStep_length {d kd vd nh f : ℕ} (tr : TrainCtx) (em : ℕ → ℝ)
    (L : EncLayer d kd vd nh f) (x : Seq d) : (encStep tr em L x).length = x.length := by
  unfold encStep
  have h1 : (L.attnWrap.run tr
      (fun qs => mhaRun tr L.attn (fun _ k => em k) qs .selfSame) x).length = x.length :=
    run_length _ _ _ _ (by simp [mhaRun_length])
  rw [run_length _ _ _ _ (by simp [h1])]; exact h1

theorem encStack_length {d kd vd nh f : ℕ} (tr : TrainCtx) (em : ℕ → ℝ)
    (Ls : List (EncLayer d kd vd nh f)) :
    ∀ x : Seq d, (encStack tr em Ls x).length = x.length := by
  induction Ls with
  | nil => intro x; rfl
  | cons L Ls ih => intro x; rw [encStack, ih, encStep_length]

theorem encode_fst_length {d kd vd nh f : ℕ} (T : Xfmr d kd vd nh f)
    (tr : TrainCtx) (inp : List ℕ) (inpLen : ℕ) :
    (T.encode tr inp inpLen).1.length = inp.length := by
  unfold Xfmr.encode addTiming
  cases T.normalizeOut <;>
    simp [encStack_length, dropSeq_length, withTiming_length]

/-- Splitting a combined projection output: its first `kd` components are the
query projection, its last `kd + vd` components the key/value projection, in
either format (`'combined'`: the sub-projections are weight slices of the one
matrix; `'use_kv'`: the combined matrix is the weight concatenation). -/
theorem combined_split {inp kd vd : ℕ} (w : MHAWeights inp kd vd) (x : Vec inp) :
    qSlice (w.combinedConv.app x) = w.queryConv.app x ∧
      kvSlice (w.combinedConv.app x) = w.kvConv.app x := by
  cases w with
  | useKv Wq bq Wkv bkv =>
      constructor
      · funext j
        simp [qSlice, MHAWeights.combinedConv, MHAWeights.queryConv, Dense.app,
          Fin.append_left]
      · funext j
        simp [kvSlice, MHAWeights.combinedConv, MHAWeights.kvConv, Dense.app,
          Fin.append_right]
  | combined Wc bc =>
      constructor
      · funext j
        simp [qSlice, MHAWeights.combinedConv, MHAWeights.queryConv, Dense.app]
      · funext j
        simp [kvSlice, MHAWeights.combinedConv, MHAWeights.kvConv, Dense.app]

/-! ### State-level cache lemmas -/

theorem getD_map_eq_of_lt {α β : Type} (g : α → β) (l : List α) (dflt : β)
    (j : ℕ) (hj : j < l.length) :
    (l.map g).getD j dflt = g (l.get ⟨j, hj⟩) := by
  simp [List.getD_eq_getElem?_getD, List.getElem?_map, List.getElem?_eq_getElem hj]

theorem decode_proj {d kd vd nh f nOut : ℕ} (M : Model d kd vd nh f nOut)
    (tr : TrainCtx) (s : DecState d kd vd) (w : Option ℕ) :
    (M.decode tr s w).outSeq = decodedOutSeq s w ∧
      (M.decode tr s w).offset = s.offset + 1 ∧
      (M.decode tr s w).decLayers =
        (decodeLoop tr s.encAttnMask
          (fun k => makeDecAttnMask (decodedOutSeq s w).length k) M.T.decL
          s.decLayers s.decEncKv s.decDecKv (decodeInput M tr s w)).2.1 ∧
      (M.decode tr s w).decDecKv =
        (decodeLoop tr s.encAttnMask
          (fun k => makeDecAttnMask (decodedOutSeq s w).length k) M.T.decL
          s.decLayers s.decEncKv s.decDecKv (decodeInput M tr s w)).2.2 := by
  exact ⟨rfl, rfl, rfl, rfl⟩

theorem decode_cache_lens {d kd vd nh f nOut : ℕ} (M : Model d kd vd nh f nOut)
    (tr : TrainCtx) (s : DecState d kd vd) (w : Option ℕ) :
    (M.decode tr s w).decLayers.length = M.T.decL.length ∧
      (M.decode tr s w).decDecKv.length = M.T.decL.length ∧
      (∀ l, l < M.T.decL.length →
        ((M.decode tr s w).decLayers.getD l []).length =
            (s.decLayers.getD l []).length + 1 ∧
          ((M.decode tr s w).decDecKv.getD l []).length =
            (s.decDecKv.getD l []).length + 1) := by
  obtain ⟨h1, h2, h3, h4, h5⟩ := decodeLoop_spec tr s.encAttnMask
    (fun k => makeDecAttnMask (decodedOutSeq s w).length k) M.T.decL
    s.decLayers s.decEncKv s.decDecKv (decodeInput M tr s w)
  obtain ⟨p1, p2, p3, p4⟩ := decode_proj M tr s w
  have hdt := decodeInput_length M tr s w
  refine ⟨by rw [p3]; exact h2, by rw [p4]; exact h3, fun l hl => ⟨?_, ?_⟩⟩
  · rw [p3, h4 l hl, hdt]
  · rw [p4, h5 l hl, hdt]

theorem decode_from_empty {d kd vd nh f nOut : ℕ} (M : Model d kd vd nh f nOut)
    (tr : TrainCtx) (s : DecState d kd vd) (hout : s.outSeq = [])
    (hLs : ∀ l, l < M.T.decL.length →
      (s.decLayers.getD l []).length = 0 ∧ (s.decDecKv.getD l []).length = 0) :
    (M.decode tr s none).outSeq = [] ∧
      (M.decode tr s none).decLayers.length = M.T.decL.length ∧
      (M.decode tr s none).decDecKv.length = M.T.decL.length ∧
      (∀ l, l < M.T.decL.length →
        ((M.decode tr s none).decLayers.getD l []).length = 1 ∧
          ((M.decode tr s none).decDecKv.getD l []).length = 1) ∧
      (M.decode tr s none).decEncKv = s.decEncKv := by
  obtain ⟨c1, c2, c3⟩ := decode_cache_lens M tr s none
  obtain ⟨p1, _, _, _⟩ := decode_proj M tr s none
  refine ⟨by rw [p1]; simpa [decodedOutSeq] using hout, c1, c2, fun l hl => ?_, rfl⟩
  obtain ⟨e1, e2⟩ := c3 l hl
  obtain ⟨g1, g2⟩ := hLs l hl
  exact ⟨by rw [e1, g1], by rw [e2, g2]⟩

theorem encode_state_facts {d kd vd nh f nOut : ℕ} (M : Model d kd vd nh f nOut)
    (tr : TrainCtx) (r : ℝ) (inp : List ℕ) (il : Option ℕ) :
    (M.encode tr r inp il).outSeq = [] ∧
      (M.encode tr r inp il).decLayers.length = M.T.decL.length ∧
      (M.encode tr r inp il).decDecKv.length = M.T.decL.length ∧
      (∀ l, l < M.T.decL.length →
        ((M.encode tr r inp il).decLayers.getD l []).length = 1 ∧
          ((M.encode tr r inp il).decDecKv.getD l []).length = 1) ∧
      (M.encode tr r inp il).decEncKv =
        M.T.decL.map fun L =>
          (M.T.encode none inp (il.getD (inferLength M.inpEos inp))).1.map
            L.crossAttn.w.kvConv.app := by
  have key := decode_from_empty M tr
    { encOut := (M.T.encode none inp (il.getD (inferLength M.inpEos inp))).1
      encAttnMask := (M.T.encode none inp (il.getD (inferLength M.inpEos inp))).2
      attnP := List.replicate inp.length (1 / ((il.getD (inferLength M.inpEos inp) : ℕ) : ℝ))
      rdo := vzero d
      outSeq := []
      offset := match M.T.dstRandOffset with
        | true => 0 + r
        | false => 0
      emb := []
      decLayers := M.T.decL.map fun _ => []
      decEncKv := M.T.decL.map fun L =>
        (M.T.encode none inp (il.getD (inferLength M.inpEos inp))).1.map
          L.crossAttn.w.kvConv.app
      decDecKv := M.T.decL.map fun L =>
        (L.selfWrap.preprocess []).map L.selfAttn.w.kvConv.app } rfl
    (fun l hl => by
      constructor
      · rw [getD_map_eq_of_lt _ _ _ _ hl]; rfl
      · rw [getD_map_eq_of_lt _ _ _ _ hl]; simp [ResWrap.preprocess])
  exact key

theorem decodeSteps_append {d kd vd nh f nOut : ℕ} (M : Model d kd vd nh f nOut)
    (tr : TrainCtx) (s : DecState d kd vd) (ws : List ℕ) (w : ℕ) :
    M.decodeSteps tr s (ws ++ [w]) = M.decode tr (M.decodeSteps tr s ws) (some w) := by
  simp [Model.decodeSteps]

theorem stateLens {d kd vd nh f nOut : ℕ} (M : Model d kd vd nh f nOut)
    (tr : TrainCtx) (r : ℝ) (inp : List ℕ) (il : Option ℕ) (ws : List ℕ) :
    (M.decodeSteps tr (M.encode tr r inp il) ws).decLayers.length = M.T.decL.length ∧
      (M.decodeSteps tr (M.encode tr r inp il) ws).decDecKv.length = M.T.decL.length ∧
      (M.decodeSteps tr (M.encode tr r inp il) ws).outSeq = ws ∧
      (∀ l, l < M.T.decL.length →
        ((M.decodeSteps tr (M.encode tr r inp il) ws).decLayers.getD l []).length = ws.length + 1 ∧
          ((M.decodeSteps tr (M.encode tr r inp il) ws).decDecKv.getD l []).length = ws.length + 1) ∧
      (M.decodeSteps tr (M.encode tr r inp il) ws).decEncKv =
        M.T.decL.map fun L =>
          (M.T.encode none inp (il.getD (inferLength M.inpEos inp))).1.map
            L.crossAttn.w.kvConv.app := by
  induction ws using List.reverseRecOn with
  | nil =>
      obtain ⟨f1, f2, f3, f4, f5⟩ := encode_state_facts M tr r inp il
      exact ⟨f2, f3, f1, f4, f5⟩
  | append_singleton ws w ih =>
      obtain ⟨i1, i2, i3, i4, i5⟩ := ih
      rw [decodeSteps_append]
      obtain ⟨c1, c2, c3⟩ := decode_cache_lens M tr (M.decodeSteps tr (M.encode tr r inp il) ws) (some w)
      obtain ⟨p1, _, _, _⟩ := decode_proj M tr (M.decodeSteps tr (M.encode tr r inp il) ws) (some w)
      refine ⟨c1, c2, ?_, fun l hl => ?_, i5⟩
      · rw [p1, decodedOutSeq, i3]
      · obtain ⟨e1, e2⟩ := c3 l hl
        obtain ⟨g1, g2⟩ := i4 l hl
        constructor
        · rw [e1, g1]; simp
        · rw [e2, g2]; simp

/-! ### Lemmas for the incremental-decode equivalence -/

theorem getD_take {α : Type} (l : List α) (dflt : α) (n j : ℕ) (hj : j < n) :
    (l.take n).getD j dflt = l.getD j dflt := by
  simp only [List.getD_eq_getElem?_getD]
  rw [List.getElem?_take]
  simp [hj]

theorem getD_append_left {α : Type} (l l2 : List α) (dflt : α) (j : ℕ)
    (hj : j < l.length) : (l ++ l2).getD j dflt = l.getD j dflt := by
  simp [List.getD_eq_getElem?_getD, List.getElem?_append, hj]

theorem eq_singleton_of_length_one {α : Type} (l : List α) (h : l.length = 1)
    (dflt : α) : l = [l.getD 0 dflt] := by
  match l, h with
  | [a], _ => simp

theorem rowsOf_getD {α : Type} (g : ℕ → α) (n j : ℕ) (dflt : α) (hj : j < n) :
    (rowsOf g n).getD j dflt = g j := by
  unfold rowsOf
  rw [getD_map_eq_of_lt _ _ _ _ (by simpa using hj)]
  congr 1
  simp

theorem rowsOf_succ {α : Type} (g : ℕ → α) (n : ℕ) :
    rowsOf g (n + 1) = rowsOf g n ++ [g n] := by
  simp [rowsOf, List.range_succ]

theorem rowsOf_congr {α : Type} (g g2 : ℕ → α) (n : ℕ)
    (h : ∀ t, t < n → g t = g2 t) : rowsOf g n = rowsOf g2 n := by
  unfold rowsOf
  exact List.map_congr_left (fun t ht => h t (List.mem_range.mp ht))

theorem sum_range_eq_of_tail_zero (F G : ℕ → ℝ) (n n' : ℕ) (hle : n' ≤ n)
    (heq : ∀ j, j < n' → F j = G j) (hz : ∀ j, n' ≤ j → j < n → F j = 0) :
    ∑ j ∈ Finset.range n, F j = ∑ j ∈ Finset.range n', G j := by
  rw [← Finset.sum_range_add_sum_Ico F hle]
  rw [Finset.sum_eq_zero (fun j hj => hz j (Finset.mem_Ico.mp hj).1 (Finset.mem_Ico.mp hj).2)]
  rw [add_zero]
  exact Finset.sum_congr rfl fun j hj => heq j (Finset.mem_range.mp hj)

theorem withTiming_append {d : ℕ} (mn mx : ℝ) (posF : ℕ → ℝ) (xs ys : Seq d) :
    ∀ t0, withTiming mn mx posF t0 (xs ++ ys) =
      withTiming mn mx posF t0 xs ++ withTiming mn mx posF (t0 + xs.length) ys := by
  induction xs with
  | nil => intro t0; simp [withTiming]
  | cons x xs ih =>
      intro t0
      have harith : t0 + 1 + xs.length = t0 + (xs.length + 1) := by omega
      simp only [List.cons_append, withTiming, List.append_eq, ih (t0 + 1), harith,
        List.length_cons]

theorem attnLogit_take {kd vd nh : ℕ} (q : Vec kd) (kvs : Seq (kd + vd))
    (m : ℕ → ℝ) (a : Fin nh) (t j : ℕ) (hj : j < t + 1) :
    attnLogit q (kvs.take (t + 1)) m a j = attnLogit q kvs m a j := by
  unfold attnLogit
  rw [getD_take _ _ _ _ hj]

theorem attnW_take {kd vd nh : ℕ} (q : Vec kd) (kvs : Seq (kd + vd))
    (m : ℕ → ℝ) (a : Fin nh) (t : ℕ) (hm : ∀ j, t < j → m j = 0) (j : ℕ)
    (hj : j < t + 1) :
    attnW q (kvs.take (t + 1)) m a j = attnW q kvs m a j := by
  unfold attnW
  rw [attnLogit_take q kvs m a t j hj]
  congr 1
  rw [List.length_take]
  refine (sum_range_eq_of_tail_zero _ _ kvs.length (min (t + 1) kvs.length)
    (Nat.min_le_right _ _) (fun j' hj' => ?_) (fun j' h1 h2 => ?_)).symm
  · rw [attnLogit_take q kvs m a t j' (lt_of_lt_of_le hj' (Nat.min_le_left _ _))]
  · have hmz : m j' = 0 := hm j' (by omega)
    simp [uexp, hmz]

theorem attnOne_take {kd vd nh : ℕ} (adrop : ℝ) (q : Vec kd)
    (kvs : Seq (kd + vd)) (m : ℕ → ℝ) (t : ℕ) (hm : ∀ j, t < j → m j = 0) :
    @attnOne kd vd nh none adrop q kvs m =
      @attnOne kd vd nh none adrop q (kvs.take (t + 1)) m := by
  unfold attnOne
  refine congrArg combineHeads ?_
  funext a i
  rw [List.length_take]
  refine sum_range_eq_of_tail_zero _ _ kvs.length (min (t + 1) kvs.length)
    (Nat.min_le_right _ _) (fun j hj => ?_) (fun j h1 h2 => ?_)
  · have hj1 : j < t + 1 := lt_of_lt_of_le hj (Nat.min_le_left _ _)
    rw [attnW_take q kvs m a t hm j hj1, getD_take _ _ _ _ hj1]
  · have hmz : m j = 0 := hm j (by omega)
    simp [dropS, attnW, uexp, hmz]

theorem mhaOne_take {inp kd vd od nh : ℕ} (p : MHAP inp kd vd od nh)
    (q : Vec kd) (kvs : Seq (kd + vd)) (m : ℕ → ℝ) (t : ℕ)
    (hm : ∀ j, t < j → m j = 0) :
    mhaOne none p q kvs m = mhaOne none p q (kvs.take (t + 1)) m := by
  unfold mhaOne
  rw [attnOne_take p.attnDrop q kvs m t hm]

theorem mhaRun_cached_def {inp kd vd od nh : ℕ} (tr : TrainCtx)
    (p : MHAP inp kd vd od nh) (mask : ℕ → ℕ → ℝ) (qs : Seq inp)
    (K : Seq (kd + vd)) :
    mhaRun tr p mask qs (.cached K) =
      rowsOf (fun t => mhaOne tr p (p.w.queryConv.app (qs.getD t (vzero inp))) K (mask t))
        qs.length := rfl

theorem mhaRun_fromSeq_def {inp kd vd od nh : ℕ} (tr : TrainCtx)
    (p : MHAP inp kd vd od nh) (mask : ℕ → ℕ → ℝ) (qs kvi : Seq inp) :
    mhaRun tr p mask qs (.fromSeq kvi) =
      rowsOf (fun t => mhaOne tr p (p.w.queryConv.app (qs.getD t (vzero inp)))
        (kvi.map p.w.kvConv.app) (mask t)) qs.length := rfl

theorem getD_append_last {α : Type} (l : List α) (a dflt : α) :
    (l ++ [a]).getD l.length dflt = a := by
  rw [List.getD_eq_getElem?_getD, List.getElem?_append_right (le_refl l.length)]
  simp

theorem getD_eq_get {α : Type} (l : List α) (dflt : α) (j : ℕ) (hj : j < l.length) :
    l.getD j dflt = l.get ⟨j, hj⟩ := by
  simp [List.getD_eq_getElem?_getD, List.getElem?_eq_getElem hj]

/-- The self-attention combined-projection path equals the cached path fed
the `kv_conv` projections of the same inputs (the weight-slice relation,
lifted to a full call). -/
theorem mhaRun_selfSame_eq_cached {inp kd vd od nh : ℕ} (tr : TrainCtx)
    (p : MHAP inp kd vd od nh) (mask : ℕ → ℕ → ℝ) (qs : Seq inp) :
    mhaRun tr p mask qs .selfSame =
      mhaRun tr p mask qs (.cached (qs.map p.w.kvConv.app)) := by
  unfold mhaRun
  refine rowsOf_congr _ _ _ (fun t ht => ?_)
  have hkv : (qs.map p.w.combinedConv.app).map kvSlice = qs.map p.w.kvConv.app := by
    rw [List.map_map]
    exact List.map_congr_left fun v _ => (combined_split p.w v).2
  rw [hkv, getD_map_eq_of_lt _ _ _ _ ht, (combined_split p.w _).1,
    getD_eq_get qs (vzero inp) t ht]

/-- Appending one query row to a cached-KV attention call (with a
query-independent mask) appends one output row. -/
theorem mhaRun_cached_append {inp kd vd od nh : ℕ} (tr : TrainCtx)
    (p : MHAP inp kd vd od nh) (mrow : ℕ → ℝ) (qs : Seq inp) (qnew : Vec inp)
    (K : Seq (kd + vd)) :
    mhaRun tr p (fun _ k => mrow k) (qs ++ [qnew]) (.cached K) =
      mhaRun tr p (fun _ k => mrow k) qs (.cached K) ++
        [mhaOne tr p (p.w.queryConv.app qnew) K mrow] := by
  rw [mhaRun_cached_def, mhaRun_cached_def,
    show (qs ++ [qnew]).length = qs.length + 1 by simp, rowsOf_succ]
  refine congrArg₂ (· ++ ·)
    (rowsOf_congr _ _ _ fun t ht => by rw [getD_append_left _ _ _ _ ht]) ?_
  rw [getD_append_last]

/-- Appending one query row to a `kv_inp` cross-attention call appends one
output row. -/
theorem mhaRun_fromSeq_append {inp kd vd od nh : ℕ} (tr : TrainCtx)
    (p : MHAP inp kd vd od nh) (em : ℕ → ℝ) (qs : Seq inp) (qnew : Vec inp)
    (kvi : Seq inp) :
    mhaRun tr p (fun _ k => em k) (qs ++ [qnew]) (.fromSeq kvi) =
      mhaRun tr p (fun _ k => em k) qs (.fromSeq kvi) ++
        [mhaOne tr p (p.w.queryConv.app qnew) (kvi.map p.w.kvConv.app) em] := by
  rw [mhaRun_fromSeq_def, mhaRun_fromSeq_def,
    show (qs ++ [qnew]).length = qs.length + 1 by simp, rowsOf_succ]
  refine congrArg₂ (· ++ ·)
    (rowsOf_congr _ _ _ fun t ht => by rw [getD_append_left _ _ _ _ ht]) ?_
  rw [getD_append_last]

/-- A single-query cached attention call. -/
theorem mhaRun_cached_singleton {inp kd vd od nh : ℕ} (tr : TrainCtx)
    (p : MHAP inp kd vd od nh) (mask : ℕ → ℕ → ℝ) (x : Vec inp)
    (K : Seq (kd + vd)) :
    mhaRun tr p mask [x] (.cached K) =
      [mhaOne tr p (p.w.queryConv.app x) K (mask 0)] := by
  rw [mhaRun_cached_def]
  simp [rowsOf, List.range_succ]

/-- Appending one row to a causally masked self-attention call appends the
row computed from the new query against all keys, visible under the
triangle row of index `qs.length`; earlier rows are unchanged — masked-out
trailing keys contribute exactly nothing. -/
theorem mhaRun_selfSame_causal_append {inp kd vd od nh : ℕ}
    (p : MHAP inp kd vd od nh) (qs : Seq inp) (qnew : Vec inp) :
    mhaRun none p makeDecAttnMask (qs ++ [qnew]) .selfSame =
      mhaRun none p makeDecAttnMask qs .selfSame ++
        [mhaOne none p (p.w.queryConv.app qnew)
          ((qs ++ [qnew]).map p.w.kvConv.app)
          (fun k => makeDecAttnMask qs.length k)] := by
  rw [mhaRun_selfSame_eq_cached, mhaRun_selfSame_eq_cached,
    mhaRun_cached_def, mhaRun_cached_def,
    show (qs ++ [qnew]).length = qs.length + 1 by simp, rowsOf_succ]
  refine congrArg₂ (· ++ ·) (rowsOf_congr _ _ _ fun t ht => ?_)
    (by rw [getD_append_last])
  · rw [getD_append_left _ _ _ _ ht]
    have hm : ∀ j, t < j → makeDecAttnMask t j = 0 := fun j hj => by
      simp only [makeDecAttnMask, ite_eq_right_iff]
      omega
    rw [mhaOne_take p _ ((qs ++ [qnew]).map p.w.kvConv.app) _ t hm,
      mhaOne_take p _ (qs.map p.w.kvConv.app) _ t hm]
    have htake : (((qs ++ [qnew]).map p.w.kvConv.app).take (t + 1)) =
        ((qs.map p.w.kvConv.app).take (t + 1)) := by
      rw [List.map_append]
      exact List.take_append_of_le_length (by simpa using ht)
    rw [htake]

/-- Appending one row to a wrapped sub-layer call appends one row, when the
inner call does. -/
theorem run_append {d : ℕ} (w : ResWrap d) (inner : Seq d → Seq d)
    (X : Seq d) (x y : Vec d)
    (hlen : (inner (X.map w.preN)).length = X.length)
    (hinner : inner ((X ++ [x]).map w.preN) = inner (X.map w.preN) ++ [y]) :
    w.run none inner (X ++ [x]) = w.run none inner X ++ [w.postN (x + y)] := by
  simp only [ResWrap.run, dropSeq, zipAdd]
  rw [hinner, List.zipWith_append _ _ _ _ _ hlen.symm]
  simp

/-- A wrapped sub-layer call on a single row. -/
theorem run_singleton {d : ℕ} (w : ResWrap d) (inner : Seq d → Seq d)
    (x y : Vec d) (hinner : inner [w.preN x] = [y]) :
    w.run none inner [x] = [w.postN (x + y)] := by
  simp [ResWrap.run, dropSeq, zipAdd, hinner]

/-- Batch wrapped causal self-attention on an extended sequence equals the
old rows plus the incremental wrapped self-attention of the new row against
the grown key/value cache. -/
theorem selfLayer_append {d kd vd nh : ℕ} (w : ResWrap d) (p : MHAP d kd vd d nh)
    (X : Seq d) (x : Vec d) :
    w.run none (fun qs => mhaRun none p makeDecAttnMask qs .selfSame) (X ++ [x]) =
      w.run none (fun qs => mhaRun none p makeDecAttnMask qs .selfSame) X ++
        w.run none (fun qs => mhaRun none p (fun _ k => makeDecAttnMask X.length k) qs
          (.cached (((X ++ [x]).map w.preN).map p.w.kvConv.app))) [x] := by
  rw [run_singleton w _ x
    (mhaOne none p (p.w.queryConv.app (w.preN x))
      (((X ++ [x]).map w.preN).map p.w.kvConv.app) (fun k => makeDecAttnMask X.length k))
    (by rw [mhaRun_cached_singleton])]
  refine run_append w _ X x _ (by simp [mhaRun_length]) ?_
  rw [List.map_append]
  show mhaRun none p makeDecAttnMask (X.map w.preN ++ [w.preN x]) .selfSame = _
  rw [mhaRun_selfSame_causal_append]
  rw [show (X.map w.preN).length = X.length by simp]
  simp [List.map_append]

/-- Batch wrapped cross-attention on an extended sequence equals the old
rows plus the incremental wrapped cross-attention of the new row against the
frozen cache. -/
theorem crossLayer_append {d kd vd nh : ℕ} (w : ResWrap d) (p : MHAP d kd vd d nh)
    (em : ℕ → ℝ) (encOut : Seq d) (X : Seq d) (x : Vec d) :
    w.run none (fun qs => mhaRun none p (fun _ k => em k) qs (.fromSeq encOut)) (X ++ [x]) =
      w.run none (fun qs => mhaRun none p (fun _ k => em k) qs (.fromSeq encOut)) X ++
        w.run none (fun qs => mhaRun none p (fun _ k => em k) qs
          (.cached (encOut.map p.w.kvConv.app))) [x] := by
  rw [run_singleton w _ x
    (mhaOne none p (p.w.queryConv.app (w.preN x)) (encOut.map p.w.kvConv.app) em)
    (by rw [mhaRun_cached_singleton])]
  refine run_append w _ X x _ (by simp [mhaRun_length]) ?_
  rw [List.map_append]
  exact mhaRun_fromSeq_append none p em (X.map w.preN) (w.preN x) encOut

/-- Batch wrapped FFN on an extended sequence appends one row. -/
theorem ffnLayer_append {d f : ℕ} (w : ResWrap d) (P : FFNP d f)
    (X : Seq d) (x : Vec d) :
    w.run none (fun qs => qs.map (P.app none)) (X ++ [x]) =
      w.run none (fun qs => qs.map (P.app none)) X ++
        w.run none (fun qs => qs.map (P.app none)) [x] := by
  rw [run_singleton w _ x (P.app none (w.preN x)) (by simp)]
  refine run_append w _ X x _ (by simp) ?_
  simp

/-- One batch decoder layer on an extended sequence equals the old rows plus
the incremental layer step of the new row, run against the grown
self-attention cache and the frozen cross-attention cache. -/
theorem decStep_append {d kd vd nh f : ℕ} (em : ℕ → ℝ) (encOut : Seq d)
    (L : DecLayer d kd vd nh f) (X : Seq d) (x : Vec d) :
    decStep none em encOut makeDecAttnMask L (X ++ [x]) =
      decStep none em encOut makeDecAttnMask L X ++
        decLayerStepI none em (fun k => makeDecAttnMask X.length k) L
          ((L.selfWrap.preprocess (X ++ [x])).map L.selfAttn.w.kvConv.app)
          (encOut.map L.crossAttn.w.kvConv.app) [x] := by
  unfold decStep decLayerStepI ResWrap.preprocess
  have h1 := selfLayer_append L.selfWrap L.selfAttn X x
  rw [h1]
  have hlen1 : (L.selfWrap.run none
      (fun qs => mhaRun none L.selfAttn (fun _ k => makeDecAttnMask X.length k) qs
        (.cached (((X ++ [x]).map L.selfWrap.preN).map L.selfAttn.w.kvConv.app))) [x]).length = 1 :=
    run_length _ _ _ _ (by simp [mhaRun_length])
  rw [eq_singleton_of_length_one _ hlen1 (vzero d)]
  rw [crossLayer_append]
  have hlen2 : (L.crossWrap.run none
      (fun qs => mhaRun none L.crossAttn (fun _ k => em k) qs
        (.cached (encOut.map L.crossAttn.w.kvConv.app)))
      [(L.selfWrap.run none
        (fun qs => mhaRun none L.selfAttn (fun _ k => makeDecAttnMask X.length k) qs
          (.cached (((X ++ [x]).map L.selfWrap.preN).map L.selfAttn.w.kvConv.app))) [x]).getD 0
        (vzero d)]).length = 1 :=
    run_length _ _ _ _ (by simp [mhaRun_length])
  rw [eq_singleton_of_length_one _ hlen2 (vzero d)]
  rw [ffnLayer_append]

theorem decStep_length {d kd vd nh f : ℕ} (tr : TrainCtx) (em : ℕ → ℝ)
    (encOut : Seq d) (mask2 : ℕ → ℕ → ℝ) (L : DecLayer d kd vd nh f) (x : Seq d) :
    (decStep tr em encOut mask2 L x).length = x.length := by
  unfold decStep
  have h1 : (L.selfWrap.run tr
      (fun qs => mhaRun tr L.selfAttn mask2 qs .selfSame) x).length = x.length :=
    run_length _ _ _ _ (by simp [mhaRun_length])
  have h2 : (L.crossWrap.run tr
      (fun qs => mhaRun tr L.crossAttn (fun _ k => em k) qs (.fromSeq encOut))
      (L.selfWrap.run tr (fun qs => mhaRun tr L.selfAttn mask2 qs .selfSame) x)).length
      = x.length := by
    rw [run_length _ _ _ _ (by simp [mhaRun_length])]; exact h1
  rw [run_length _ _ _ _ (by simp [h2])]; exact h2

theorem decStack_nil {d kd vd nh f : ℕ} (tr : TrainCtx) (em : ℕ → ℝ)
    (encOut : Seq d) (mask2 : ℕ → ℕ → ℝ) (x : Seq d) :
    @decStack d kd vd nh f tr em encOut mask2 [] x = x := rfl

theorem decStack_cons {d kd vd nh f : ℕ} (tr : TrainCtx) (em : ℕ → ℝ)
    (encOut : Seq d) (mask2 : ℕ → ℕ → ℝ) (L : DecLayer d kd vd nh f)
    (Ls : List (DecLayer d kd vd nh f)) (x : Seq d) :
    decStack tr em encOut mask2 (L :: Ls) x =
      decStack tr em encOut mask2 Ls (decStep tr em encOut mask2 L x) := rfl

theorem decOuts_cons {d kd vd nh f : ℕ} (tr : TrainCtx) (em : ℕ → ℝ)
    (encOut : Seq d) (mask2 : ℕ → ℕ → ℝ) (L : DecLayer d kd vd nh f)
    (Ls : List (DecLayer d kd vd nh f)) (x : Seq d) :
    decOuts tr em encOut mask2 (L :: Ls) x =
      decStep tr em encOut mask2 L x ::
        decOuts tr em encOut mask2 Ls (decStep tr em encOut mask2 L x) := rfl

theorem decTraceKv_cons {d kd vd nh f : ℕ} (tr : TrainCtx) (em : ℕ → ℝ)
    (encOut : Seq d) (mask2 : ℕ → ℕ → ℝ) (L : DecLayer d kd vd nh f)
    (Ls : List (DecLayer d kd vd nh f)) (x : Seq d) :
    decTraceKv tr em encOut mask2 (L :: Ls) x =
      (L.selfWrap.preprocess x).map L.selfAttn.w.kvConv.app ::
        decTraceKv tr em encOut mask2 Ls (decStep tr em encOut mask2 L x) := rfl

theorem crossKvs_cons {d kd vd nh f : ℕ} (L : DecLayer d kd vd nh f)
    (Ls : List (DecLayer d kd vd nh f)) (encOut : Seq d) :
    crossKvs (L :: Ls) encOut =
      encOut.map L.crossAttn.w.kvConv.app :: crossKvs Ls encOut := rfl

theorem decodeLoop_cons {d kd vd nh f : ℕ} (tr : TrainCtx) (em mrow : ℕ → ℝ)
    (L : DecLayer d kd vd nh f) (Ls : List (DecLayer d kd vd nh f))
    (pLs : List (Seq d)) (pEK pDK : List (Seq (kd + vd))) (x : Seq d) :
    decodeLoop tr em mrow (L :: Ls) pLs pEK pDK x =
      ((decodeLoop tr em mrow Ls pLs.tail pEK.tail pDK.tail
          (decLayerStepI tr em mrow L
            (pDK.headD [] ++ (L.selfWrap.preprocess x).map L.selfAttn.w.kvConv.app)
            (pEK.headD []) x)).1,
        (pLs.headD [] ++
            decLayerStepI tr em mrow L
              (pDK.headD [] ++ (L.selfWrap.preprocess x).map L.selfAttn.w.kvConv.app)
              (pEK.headD []) x) ::
          (decodeLoop tr em mrow Ls pLs.tail pEK.tail pDK.tail
            (decLayerStepI tr em mrow L
              (pDK.headD [] ++ (L.selfWrap.preprocess x).map L.selfAttn.w.kvConv.app)
              (pEK.headD []) x)).2.1,
        (pDK.headD [] ++ (L.selfWrap.preprocess x).map L.selfAttn.w.kvConv.app) ::
          (decodeLoop tr em mrow Ls pLs.tail pEK.tail pDK.tail
            (decLayerStepI tr em mrow L
              (pDK.headD [] ++ (L.selfWrap.preprocess x).map L.selfAttn.w.kvConv.app)
              (pEK.headD []) x)).2.2) := rfl

/-- The central extension lemma: one incremental decode-loop call on the new
input row, fed the caches recorded from the batch traces on `X`, produces
exactly the batch traces on `X ++ [x]`, and its output row extends the batch
stack output. -/
theorem decodeLoop_extends {d kd vd nh f : ℕ} (em : ℕ → ℝ) (benc : Seq d)
    (Ls : List (DecLayer d kd vd nh f)) :
    ∀ (X : Seq d) (x : Vec d),
      (decStack none em benc makeDecAttnMask Ls (X ++ [x]) =
        decStack none em benc makeDecAttnMask Ls X ++
          (decodeLoop none em (fun k => makeDecAttnMask X.length k) Ls
            (decOuts none em benc makeDecAttnMask Ls X) (crossKvs Ls benc)
            (decTraceKv none em benc makeDecAttnMask Ls X) [x]).1) ∧
        (decodeLoop none em (fun k => makeDecAttnMask X.length k) Ls
            (decOuts none em benc makeDecAttnMask Ls X) (crossKvs Ls benc)
            (decTraceKv none em benc makeDecAttnMask Ls X) [x]).2.1 =
          decOuts none em benc makeDecAttnMask Ls (X ++ [x]) ∧
        (decodeLoop none em (fun k => makeDecAttnMask X.length k) Ls
            (decOuts none em benc makeDecAttnMask Ls X) (crossKvs Ls benc)
            (decTraceKv none em benc makeDecAttnMask Ls X) [x]).2.2 =
          decTraceKv none em benc makeDecAttnMask Ls (X ++ [x]) := by
  induction Ls with
  | nil => intro X x; exact ⟨rfl, rfl, rfl⟩
  | cons L Ls ih =>
      intro X x
      have hpre : (L.selfWrap.preprocess X).map L.selfAttn.w.kvConv.app ++
          (L.selfWrap.preprocess [x]).map L.selfAttn.w.kvConv.app =
          (L.selfWrap.preprocess (X ++ [x])).map L.selfAttn.w.kvConv.app := by
        simp [ResWrap.preprocess]
      have hstep := decStep_append em benc L X x
      have hlen3 : (decLayerStepI none em (fun k => makeDecAttnMask X.length k) L
          ((L.selfWrap.preprocess (X ++ [x])).map L.selfAttn.w.kvConv.app)
          (benc.map L.crossAttn.w.kvConv.app) [x]).length = 1 := by
        rw [decLayerStepI_length]; rfl
      have hξ := eq_singleton_of_length_one _ hlen3 (vzero d)
      have hmlen : (fun k => makeDecAttnMask
          (decStep none em benc makeDecAttnMask L X).length k) =
          (fun k => makeDecAttnMask X.length k) := by
        rw [decStep_length]
      obtain ⟨ih1, ih2, ih3⟩ := ih (decStep none em benc makeDecAttnMask L X)
        ((decLayerStepI none em (fun k => makeDecAttnMask X.length k) L
          ((L.selfWrap.preprocess (X ++ [x])).map L.selfAttn.w.kvConv.app)
          (benc.map L.crossAttn.w.kvConv.app) [x]).getD 0 (vzero d))
      rw [hmlen] at ih1 ih2 ih3
      rw [← hξ] at ih1 ih2 ih3
      rw [← hstep] at ih1 ih2 ih3
      rw [decodeLoop_cons]
      simp only [decOuts_cons, decTraceKv_cons, crossKvs_cons, List.tail_cons,
        List.headD_cons, hpre]
      refine ⟨?_, ?_, ?_⟩
      · rw [decStack_cons, decStack_cons, ih1]
      · exact congrArg₂ (· :: ·) hstep.symm ih2
      · exact congrArg₂ (· :: ·) rfl ih3

theorem decStep_nil_input {d kd vd nh f : ℕ} (tr : TrainCtx) (em : ℕ → ℝ)
    (encOut : Seq d) (mask2 : ℕ → ℕ → ℝ) (L : DecLayer d kd vd nh f) :
    decStep tr em encOut mask2 L [] = [] := by
  have h := decStep_length tr em encOut mask2 L []
  exact List.length_eq_zero.mp (by simpa using h)

theorem decStack_nil_input {d kd vd nh f : ℕ} (tr : TrainCtx) (em : ℕ → ℝ)
    (encOut : Seq d) (mask2 : ℕ → ℕ → ℝ) (Ls : List (DecLayer d kd vd nh f)) :
    decStack tr em encOut mask2 Ls [] = [] := by
  induction Ls with
  | nil => rfl
  | cons L Ls ih => rw [decStack_cons, decStep_nil_input, ih]

theorem decOuts_nil_input {d kd vd nh f : ℕ} (tr : TrainCtx) (em : ℕ → ℝ)
    (encOut : Seq d) (mask2 : ℕ → ℕ → ℝ) (Ls : List (DecLayer d kd vd nh f)) :
    decOuts tr em encOut mask2 Ls [] = Ls.map fun _ => [] := by
  induction Ls with
  | nil => rfl
  | cons L Ls ih => rw [decOuts_cons, decStep_nil_input, ih]; rfl

theorem decTraceKv_nil_input {d kd vd nh f : ℕ} (tr : TrainCtx) (em : ℕ → ℝ)
    (encOut : Seq d) (mask2 : ℕ → ℕ → ℝ) (Ls : List (DecLayer d kd vd nh f)) :
    decTraceKv tr em encOut mask2 Ls [] =
      Ls.map fun L => (L.selfWrap.preprocess []).map L.selfAttn.w.kvConv.app := by
  induction Ls with
  | nil => rfl
  | cons L Ls ih => rw [decTraceKv_cons, decStep_nil_input, ih]; rfl

theorem decStack_length {d kd vd nh f : ℕ} (tr : TrainCtx) (em : ℕ → ℝ)
    (encOut : Seq d) (mask2 : ℕ → ℕ → ℝ) (Ls : List (DecLayer d kd vd nh f)) :
    ∀ x : Seq d, (decStack tr em encOut mask2 Ls x).length = x.length := by
  induction Ls with
  | nil => intro x; rfl
  | cons L Ls ih => intro x; rw [decStack_cons, ih, decStep_length]

theorem decIn0_length {d kd vd nh f : ℕ} (T : Xfmr d kd vd nh f)
    (encOut : Seq d) (em : ℕ → ℝ) (ws : List ℕ) :
    (decIn0 T encOut em ws).length = ws.length + 1 := by
  unfold decIn0 addTiming
  cases T.decL <;> simp [withTiming_length]

theorem getLastD_concat {α : Type} (l : List α) (a dflt : α) :
    (l ++ [a]).getLastD dflt = a := by
  simp

theorem getLastD_map_of_length_pos {d n : ℕ} (g : Vec d → Vec n) (y : Seq d)
    (hy : 0 < y.length) :
    (y.map g).getLastD (vzero n) = g (y.getLastD (vzero d)) := by
  match y, hy with
  | x :: xs, _ =>
      rw [List.getLastD_eq_getLast?, List.getLastD_eq_getLast?, List.getLast?_map]
      rw [List.getLast?_eq_getLast _ (by simp)]
      simp

/-- The incremental decoder input row for word `w`, appended to the batch
input rows of the consumed prefix `ws`, gives the batch input rows of
`ws ++ [w]` — timing offsets align exactly. -/
theorem decodeInput_matches {d kd vd nh f nOut : ℕ} (M : Model d kd vd nh f nOut)
    (s : DecState d kd vd) (ws : List ℕ) (w : ℕ) (benc : Seq d) (bm : ℕ → ℝ)
    (hoff : s.offset = (ws.length : ℝ) + 1) (henc : s.encOut = benc)
    (hm : s.encAttnMask = bm) :
    decIn0 M.T benc bm ws ++ decodeInput M none s (some w) =
      decIn0 M.T benc bm (ws ++ [w]) := by
  have hsplit : (vzero d :: (ws ++ [w]).map (embScaledOut M.T)) =
      (vzero d :: ws.map (embScaledOut M.T)) ++ [embScaledOut M.T w] := by
    simp
  have hlen : (vzero d :: ws.map (embScaledOut M.T)).length = ws.length + 1 := by
    simp
  have hp : (((0 : ℕ) : ℝ) + s.offset) * revMul none =
      (((0 + (ws.length + 1) : ℕ) : ℝ) + 0) * revMul (some 0) := by
    simp only [revMul, if_pos rfl, hoff]
    push_cast
    ring
  have hrow : withTiming (d := d) 1 (10 ^ 4)
      (fun t => ((t : ℝ) + s.offset) * revMul none) 0 [embScaledOut M.T w] =
      withTiming 1 (10 ^ 4) (fun t => ((t : ℝ) + 0) * revMul (some 0))
        (0 + (ws.length + 1)) [embScaledOut M.T w] := by
    simp only [withTiming]
    rw [hp]
  simp only [decodeInput, decIn0, addTiming, dropSeq]
  rw [hsplit, withTiming_append, hlen]
  cases hL : M.T.decL with
  | nil =>
      simp only [hL]
      rw [henc, hm, ← hrow, List.map_append]
  | cons L Ls =>
      simp only [hL]
      rw [hrow]

/-- The initial decode step's input row (zero embedding, offset 0) is the
batch input row list of the empty prefix. -/
theorem decodeInput_base {d kd vd nh f nOut : ℕ} (M : Model d kd vd nh f nOut)
    (s : DecState d kd vd) (benc : Seq d) (bm : ℕ → ℝ)
    (hoff : s.offset = 0) (henc : s.encOut = benc) (hm : s.encAttnMask = bm) :
    decodeInput M none s none = decIn0 M.T benc bm [] := by
  have hrow : withTiming (d := d) 1 (10 ^ 4)
      (fun t => ((t : ℝ) + s.offset) * revMul none) 0 [vzero d] =
      withTiming 1 (10 ^ 4)
        (fun t => ((t : ℝ) + 0) * revMul (some 0)) 0 [vzero d] := by
    simp only [withTiming]
    rw [show (((0 : ℕ) : ℝ) + s.offset) * revMul none =
      (((0 : ℕ) : ℝ) + 0) * revMul (some 0) by simp [revMul, hoff]]
  simp only [decodeInput, decIn0, addTiming, dropSeq, List.map_nil]
  cases hL : M.T.decL with
  | nil =>
      simp only [hL]
      rw [henc, hm, hrow]
  | cons L Ls =>
      simp only [hL]
      rw [hrow]

theorem decode_rdo_proj {d kd vd nh f nOut : ℕ} (M : Model d kd vd nh f nOut)
    (tr : TrainCtx) (s : DecState d kd vd) (w : Option ℕ) :
    (M.decode tr s w).rdo =
      (match M.T.normalizeOut with
        | true =>
            (decodeLoop tr s.encAttnMask
              (fun k => makeDecAttnMask (decodedOutSeq s w).length k) M.T.decL
              s.decLayers s.decEncKv s.decDecKv (decodeInput M tr s w)).1.map M.T.decOutNorm
        | false =>
            (decodeLoop tr s.encAttnMask
              (fun k => makeDecAttnMask (decodedOutSeq s w).length k) M.T.decL
              s.decLayers s.decEncKv s.decDecKv (decodeInput M tr s w)).1).getLastD
        (vzero d) := rfl

/-- One decode call advances the incremental-state invariant: if the state's
caches record the batch traces on input rows `X` and the new input row
extends `X` to `XX`, the new state's caches record the batch traces on `XX`
and its read-out is the last row of the batch decoder output on `XX`. -/
theorem decode_step_inv {d kd vd nh f nOut : ℕ} (M : Model d kd vd nh f nOut)
    (s : DecState d kd vd) (benc : Seq d) (bm : ℕ → ℝ) (X XX : Seq d)
    (words : Option ℕ)
    (h2 : s.encAttnMask = bm)
    (h5 : s.decEncKv = crossKvs M.T.decL benc)
    (h6 : s.decLayers = decOuts none bm benc makeDecAttnMask M.T.decL X)
    (h7 : s.decDecKv = decTraceKv none bm benc makeDecAttnMask M.T.decL X)
    (hmsk : (decodedOutSeq s words).length = X.length)
    (hin : X ++ decodeInput M none s words = XX) :
    (M.decode none s words).decLayers =
        decOuts none bm benc makeDecAttnMask M.T.decL XX ∧
      (M.decode none s words).decDecKv =
        decTraceKv none bm benc makeDecAttnMask M.T.decL XX ∧
      (M.decode none s words).rdo =
        (match M.T.normalizeOut with
          | true => (decStack none bm benc makeDecAttnMask M.T.decL XX).map M.T.decOutNorm
          | false => decStack none bm benc makeDecAttnMask M.T.decL XX).getLastD
          (vzero d) := by
  have hin1 : decodeInput M none s words =
      [(decodeInput M none s words).getD 0 (vzero d)] :=
    eq_singleton_of_length_one _ (decodeInput_length M none s words) _
  have hXX : XX = X ++ [(decodeInput M none s words).getD 0 (vzero d)] := by
    rw [← hin]
    exact congrArg (fun z => X ++ z) hin1
  obtain ⟨e1, e2, e3⟩ := decodeLoop_extends bm benc M.T.decL X
    ((decodeInput M none s words).getD 0 (vzero d))
  obtain ⟨_, _, p3, p4⟩ := decode_proj M none s words
  have hloop1 : (decodeLoop none bm (fun k => makeDecAttnMask X.length k) M.T.decL
      (decOuts none bm benc makeDecAttnMask M.T.decL X) (crossKvs M.T.decL benc)
      (decTraceKv none bm benc makeDecAttnMask M.T.decL X)
      [(decodeInput M none s words).getD 0 (vzero d)]).1.length = 1 :=
    (decodeLoop_spec none bm (fun k => makeDecAttnMask X.length k) M.T.decL
      (decOuts none bm benc makeDecAttnMask M.T.decL X) (crossKvs M.T.decL benc)
      (decTraceKv none bm benc makeDecAttnMask M.T.decL X)
      [(decodeInput M none s words).getD 0 (vzero d)]).1
  refine ⟨?_, ?_, ?_⟩
  · rw [p3, h2, h6, h5, h7, hmsk, hin1, hXX]
    exact e2
  · rw [p4, h2, h6, h5, h7, hmsk, hin1, hXX]
    exact e3
  · rw [decode_rdo_proj, h2, h6, h5, h7, hmsk, hin1, hXX]
    have hstack : decStack none bm benc makeDecAttnMask M.T.decL
        (X ++ [(decodeInput M none s words).getD 0 (vzero d)]) =
        decStack none bm benc makeDecAttnMask M.T.decL X ++
          (decodeLoop none bm (fun k => makeDecAttnMask X.length k) M.T.decL
            (decOuts none bm benc makeDecAttnMask M.T.decL X) (crossKvs M.T.decL benc)
            (decTraceKv none bm benc makeDecAttnMask M.T.decL X)
            [(decodeInput M none s words).getD 0 (vzero d)]).1 := e1
    rw [hstack]
    rw [eq_singleton_of_length_one _ hloop1 (vzero d)]
    cases M.T.normalizeOut <;> simp

/-- The full incremental invariant: after `Model.encode` and the decode
calls for `ws`, the state's fields record the batch traces of the prefix
`ws`. -/
theorem decInv {d kd vd nh f nOut : ℕ} (M : Model d kd vd nh f nOut)
    (hflag : M.T.dstRandOffset = false) (r : ℝ) (inp : List ℕ) (ws : List ℕ) :
    (M.decodeSteps none (M.encode none r inp none) ws).encOut =
        (M.T.encode none inp (inferLength M.inpEos inp)).1 ∧
      (M.decodeSteps none (M.encode none r inp none) ws).encAttnMask =
        (M.T.encode none inp (inferLength M.inpEos inp)).2 ∧
      (M.decodeSteps none (M.encode none r inp none) ws).outSeq = ws ∧
      (M.decodeSteps none (M.encode none r inp none) ws).offset = (ws.length : ℝ) + 1 ∧
      (M.decodeSteps none (M.encode none r inp none) ws).decEncKv =
        crossKvs M.T.decL (M.T.encode none inp (inferLength M.inpEos inp)).1 ∧
      (M.decodeSteps none (M.encode none r inp none) ws).decLayers =
        decOuts none (M.T.encode none inp (inferLength M.inpEos inp)).2
          (M.T.encode none inp (inferLength M.inpEos inp)).1 makeDecAttnMask M.T.decL
          (decIn0 M.T (M.T.encode none inp (inferLength M.inpEos inp)).1
            (M.T.encode none inp (inferLength M.inpEos inp)).2 ws) ∧
      (M.decodeSteps none (M.encode none r inp none) ws).decDecKv =
        decTraceKv none (M.T.encode none inp (inferLength M.inpEos inp)).2
          (M.T.encode none inp (inferLength M.inpEos inp)).1 makeDecAttnMask M.T.decL
          (decIn0 M.T (M.T.encode none inp (inferLength M.inpEos inp)).1
            (M.T.encode none inp (inferLength M.inpEos inp)).2 ws) ∧
      (M.decodeSteps none (M.encode none r inp none) ws).rdo =
        (match M.T.normalizeOut with
          | true =>
              (decStack none (M.T.encode none inp (inferLength M.inpEos inp)).2
                (M.T.encode none inp (inferLength M.inpEos inp)).1 makeDecAttnMask M.T.decL
                (decIn0 M.T (M.T.encode none inp (inferLength M.inpEos inp)).1
                  (M.T.encode none inp (inferLength M.inpEos inp)).2 ws)).map M.T.decOutNorm
          | false =>
              decStack none (M.T.encode none inp (inferLength M.inpEos inp)).2
                (M.T.encode none inp (inferLength M.inpEos inp)).1 makeDecAttnMask M.T.decL
                (decIn0 M.T (M.T.encode none inp (inferLength M.inpEos inp)).1
                  (M.T.encode none inp (inferLength M.inpEos inp)).2 ws)).getLastD
          (vzero d) := by
  induction ws using List.reverseRecOn with
  | nil =>
      have hoff0 : (encInitState M r inp).offset = 0 := by
        show (match M.T.dstRandOffset with
          | true => (0 : ℝ) + r
          | false => (0 : ℝ)) = (0 : ℝ)
        rw [hflag]
      have key := decode_step_inv M (encInitState M r inp)
        (M.T.encode none inp (inferLength M.inpEos inp)).1
        (M.T.encode none inp (inferLength M.inpEos inp)).2 []
        (decIn0 M.T (M.T.encode none inp (inferLength M.inpEos inp)).1
          (M.T.encode none inp (inferLength M.inpEos inp)).2 []) none rfl rfl
        (decOuts_nil_input _ _ _ _ _).symm (decTraceKv_nil_input _ _ _ _ _).symm rfl
        (by
          rw [List.nil_append]
          exact decodeInput_base M _ _ _ hoff0 rfl rfl)
      have h4b : (M.decodeSteps none (M.encode none r inp none) []).offset =
          (match M.T.dstRandOffset with
            | true => (0 : ℝ) + r
            | false => 0) + 1 := rfl
      rw [hflag] at h4b
      exact ⟨rfl, rfl, rfl, by simpa using h4b, rfl, key.1, key.2.1, key.2.2⟩
  | append_singleton ws w ih =>
      obtain ⟨i1, i2, i3, i4, i5, i6, i7, i8⟩ := ih
      rw [decodeSteps_append]
      have hmsk : (decodedOutSeq (M.decodeSteps none (M.encode none r inp none) ws)
          (some w)).length =
          (decIn0 M.T (M.T.encode none inp (inferLength M.inpEos inp)).1
            (M.T.encode none inp (inferLength M.inpEos inp)).2 ws).length := by
        rw [decIn0_length]
        simp [decodedOutSeq, i3]
      have hin := decodeInput_matches M (M.decodeSteps none (M.encode none r inp none) ws)
        ws w (M.T.encode none inp (inferLength M.inpEos inp)).1
        (M.T.encode none inp (inferLength M.inpEos inp)).2 i4 i1 i2
      have key := decode_step_inv M (M.decodeSteps none (M.encode none r inp none) ws)
        (M.T.encode none inp (inferLength M.inpEos inp)).1
        (M.T.encode none inp (inferLength M.inpEos inp)).2
        (decIn0 M.T (M.T.encode none inp (inferLength M.inpEos inp)).1
          (M.T.encode none inp (inferLength M.inpEos inp)).2 ws)
        (decIn0 M.T (M.T.encode none inp (inferLength M.inpEos inp)).1
          (M.T.encode none inp (inferLength M.inpEos inp)).2 (ws ++ [w]))
        (some w) i2 i5 i6 i7 hmsk hin
      obtain ⟨p1, p2, _, _⟩ := decode_proj M none
        (M.decodeSteps none (M.encode none r inp none) ws) (some w)
      refine ⟨i1, i2, ?_, ?_, i5, key.1, key.2.1, key.2.2⟩
      · rw [p1]
        simp [decodedOutSeq, i3]
      · rw [p2, i4, List.length_append, List.length_singleton]
        push_cast
        ring

/-! ### Claims -/

/-- C1: with dropout disabled (inference mode, `is_train = False`) and
`dst_rand_offset` off, running `Model.encode` and then `Model.decode`
token-by-token over the first `k` target tokens yields a state whose
`get_logits` output equals the final-position row of the batch
training-path scorer `symbolic_score` run over the prefix of length
`k + 1` — incremental and batch decoding agree (exactly, in this model:
the claim's floating-point tolerance is absorbed by the exact-underflow
reading of the `-1e9` mask bias). -/
theorem claim1_incremental_decode_equiv {d kd vd nh f nOut : ℕ}
    (M : Model d kd vd nh f nOut) (hflag : M.T.dstRandOffset = false)
    (r : ℝ) (rf : ℕ → ℝ) (inp ys : List ℕ) (k : ℕ) (hk : k < ys.length) :
    M.getLogits (M.decodeSteps none (M.encode none r inp none) (ys.take k)) =
      (M.symbolicScore none rf inp (ys.take (k + 1))).getLastD (vzero nOut) := by
  obtain ⟨-, -, -, -, -, -, -, i8⟩ := decInv M hflag r inp (ys.take k)
  have hemb : shiftRight ((ys.take (k + 1)).map (embScaledOut M.T)) =
      vzero d :: (ys.take k).map (embScaledOut M.T) := by
    have hk2 : k < (ys.map (embScaledOut M.T)).length := by simpa using hk
    rw [shiftRight, List.map_take, List.map_take, List.take_succ,
      List.getElem?_eq_getElem hk2, Option.toList_some,
      ← List.cons_append, List.dropLast_concat]
  have hB : M.T.decodeB none (ys.take (k + 1))
      (inferLength M.outEos (ys.take (k + 1))) (some 0) rf
      (M.T.encode none inp (inferLength M.inpEos inp)).1
      (M.T.encode none inp (inferLength M.inpEos inp)).2 =
      (match M.T.normalizeOut with
        | true =>
            (decStack none (M.T.encode none inp (inferLength M.inpEos inp)).2
              (M.T.encode none inp (inferLength M.inpEos inp)).1 makeDecAttnMask M.T.decL
              (decIn0 M.T (M.T.encode none inp (inferLength M.inpEos inp)).1
                (M.T.encode none inp (inferLength M.inpEos inp)).2
                (ys.take k))).map M.T.decOutNorm
        | false =>
            decStack none (M.T.encode none inp (inferLength M.inpEos inp)).2
              (M.T.encode none inp (inferLength M.inpEos inp)).1 makeDecAttnMask M.T.decL
              (decIn0 M.T (M.T.encode none inp (inferLength M.inpEos inp)).1
                (M.T.encode none inp (inferLength M.inpEos inp)).2
                (ys.take k))) := by
    simp only [Xfmr.decodeB, hflag, hemb, decIn0, dropSeq]
  simp only [Model.getLogits, Model.symbolicScore]
  rw [i8, hB]
  cases hno : M.T.normalizeOut
  · exact (getLastD_map_of_length_pos M.logits.app _
      (by simp [decStack_length, decIn0_length])).symm
  · exact (getLastD_map_of_length_pos M.logits.app _
      (by simp [decStack_length, decIn0_length])).symm

/-- Witness for C1 at a concrete one-layer model, `inp = [0]`, target
`[0]`, step `k = 0`. -/
theorem claim1_witness :
    (modelOne.T.dstRandOffset = false ∧ 0 < ([0] : List ℕ).length) ∧
      modelOne.getLogits (modelOne.decodeSteps none
          (modelOne.encode none 0 [0] none) (([0] : List ℕ).take 0)) =
        (modelOne.symbolicScore none (fun _ => 0) [0]
          (([0] : List ℕ).take (0 + 1))).getLastD (vzero 1) :=
  ⟨⟨rfl, by decide⟩,
    claim1_incremental_decode_equiv modelOne rfl 0 (fun _ => 0) [0] [0] 0
      (by decide)⟩

/-- C2: the positional signal computed by `_add_timing_signal` for a
length-1 input at integer offset `k` equals row `k` of the signal computed
for a length-`N` input at offset 0, for every hidden size, every `k` and
every `N > k` (given the same row content, since `_add_timing_signal`
returns input plus signal). -/
theorem claim2_timing_single_step_eq_row {d : ℕ} (mn mx : ℝ) (k N : ℕ)
    (x : Vec d) (ys : Seq d) (hN : ys.length = N) (hk : k < N)
    (hx : ys.getD k (vzero d) = x) :
    (addTiming mn mx (fun _ => (k : ℝ)) none [x]).getD 0 (vzero d) =
      (addTiming mn mx (fun _ => 0) none ys).getD k (vzero d) := by
  have hk' : k < ys.length := by omega
  unfold addTiming
  rw [withTiming_getD mn mx _ ys 0 k hk']
  simp only [withTiming, revMul, List.getD_cons_zero]
  rw [← hx]
  simp [List.getD_eq_getElem?_getD]

/-- Witness for C2 at `d = 2`, `k = 1`, `N = 2`. -/
theorem claim2_witness :
    ((vzero 2 :: [fun _ => (1 : ℝ)]).length = 2 ∧ 1 < 2 ∧
        (vzero 2 :: [fun _ => (1 : ℝ)]).getD 1 (vzero 2) = (fun _ => (1 : ℝ))) ∧
      (addTiming 1 (10 ^ 4) (fun _ => ((1 : ℕ) : ℝ)) none [fun _ => (1 : ℝ)]).getD 0 (vzero 2) =
        (addTiming 1 (10 ^ 4) (fun _ => 0) none (vzero 2 :: [fun _ => (1 : ℝ)])).getD 1 (vzero 2) :=
  ⟨⟨by simp, by omega, by simp⟩,
    claim2_timing_single_step_eq_row 1 (10 ^ 4) 1 2 _ _ (by simp) (by omega) (by simp)⟩

/-- C6: a key or value depth not evenly divisible by `num_heads` makes the
`Transformer` constructor raise `Bad number of heads` during size
validation, before any layer (hence any attention unit or tensor operation)
is constructed. -/
theorem claim6_head_count_validation (hp : RawHp)
    (hbad : hp.keySize.getD hp.hidSize % hp.numHeads ≠ 0 ∨
      hp.valueSize.getD hp.hidSize % hp.numHeads ≠ 0) :
    validateHp hp = .error "Bad number of heads" := by
  unfold validateHp
  rcases hbad with h | h
  · simp [h]
  · by_cases hkey : hp.keySize.getD hp.hidSize % hp.numHeads = 0 <;> simp [h, hkey]

/-- Witness for C6: `value_size = 3`, `num_heads = 2`. -/
theorem claim6_witness :
    ((3 : ℕ) % 2 ≠ 0 ∨ (3 : ℕ) % 2 ≠ 0) ∧
      validateHp ⟨4, none, none, some 3, 2, 6⟩ = .error "Bad number of heads" :=
  ⟨Or.inr (by decide),
    claim6_head_count_validation ⟨4, none, none, some 3, 2, 6⟩ (Or.inr (by decide))⟩

/-- C4: `Model.decode` returns a state whose `enc_out`, `enc_attn_mask` and
per-layer cross-attention caches `dec_enc_kv` are exactly those of the input
state, and `Model.encode` builds `dec_enc_kv` once as `kv_conv(enc_out)` for
every decoder layer. -/
theorem claim4_cross_cache_frozen {d kd vd nh f nOut : ℕ}
    (M : Model d kd vd nh f nOut) (tr : TrainCtx) (s : DecState d kd vd)
    (w : Option ℕ) (r : ℝ) (inp : List ℕ) (il : Option ℕ) :
    (M.decode tr s w).encOut = s.encOut ∧
      (M.decode tr s w).encAttnMask = s.encAttnMask ∧
      (M.decode tr s w).decEncKv = s.decEncKv ∧
      (M.encode tr r inp il).decEncKv =
        M.T.decL.map fun L => (M.encode tr r inp il).encOut.map L.crossAttn.w.kvConv.app := by
  refine ⟨rfl, rfl, rfl, ?_⟩
  rfl

/-- C5: every attention logit is the scaled score
`(q / sqrt(key_depth / num_heads)) · k` plus the additive bias
`ATTN_BIAS_VALUE * (1 - mask)`, applied before the softmax over the key
axis, and every key position with `mask = 0` receives softmax weight zero
for every query. -/
theorem claim5_mask_bias_and_zero_weight {kd vd nh : ℕ} (q : Vec kd)
    (kvs : Seq (kd + vd)) (m : ℕ → ℝ) (a : Fin nh) (j : ℕ) :
    attnLogit q kvs m a j =
        (∑ i : Fin (kd / nh),
          q (headIx a i) / Real.sqrt ((kd : ℝ) / (nh : ℝ)) *
            kPart (kvs.getD j (vzero _)) (headIx a i)) +
          ATTN_BIAS_VALUE * (1 - m j) ∧
      (m j = 0 → attnW q kvs m a j = 0) := by
  refine ⟨rfl, fun hm => ?_⟩
  unfold attnW uexp
  rw [if_pos hm]
  exact zero_div _

/-- Witness for C5: a 2-key attention with key 1 masked has weight 0 at
key 1. -/
theorem claim5_witness :
    (fun k => if k = 1 then (0 : ℝ) else 1) 1 = 0 ∧
      attnW (vzero 1) ([vzero (1 + 1), vzero (1 + 1)])
          (fun k => if k = 1 then (0 : ℝ) else 1) (0 : Fin 1) 1 = 0 :=
  ⟨by norm_num,
    (claim5_mask_bias_and_zero_weight (vzero 1) ([vzero (1 + 1), vzero (1 + 1)])
        (fun k => if k = 1 then (0 : ℝ) else 1) (0 : Fin 1) 1).2 (by norm_num)⟩

/-- C8: in either projection format, splitting `combined_conv(x)` at
`[key_depth, key_depth, value_depth]` yields exactly `query_conv(x)` and the
key/value split of `kv_conv(x)`: the two layouts compute the same Q, K and V
on the same input. -/
theorem claim8_combined_split_equiv {inp kd vd : ℕ} (w : MHAWeights inp kd vd)
    (x : Vec inp) :
    qSlice (w.combinedConv.app x) = w.queryConv.app x ∧
      kPart (kvSlice (w.combinedConv.app x)) = kPart (w.kvConv.app x) ∧
      vPart (kvSlice (w.combinedConv.app x)) = vPart (w.kvConv.app x) := by
  obtain ⟨h1, h2⟩ := combined_split w x
  exact ⟨h1, by rw [h2], by rw [h2]⟩

/-- C7: the batch decoder input is the embedded target sequence shifted
right by one position — position 0 a zero embedding, position `i + 1` the
embedding of token `i`, the last embedding dropped (same length) — and the
causal mask is lower-triangular: key `k` is visible to query `q` iff
`k ≤ q`. -/
theorem claim7_shift_right_and_causal_mask {d kd vd nh f : ℕ}
    (T : Xfmr d kd vd nh f) (out : List ℕ) :
    (shiftRight (out.map (embScaledOut T))).length = out.length ∧
      (0 < out.length →
        (shiftRight (out.map (embScaledOut T))).getD 0 (vzero d) = vzero d) ∧
      (∀ i, i + 1 < out.length →
        (shiftRight (out.map (embScaledOut T))).getD (i + 1) (vzero d) =
          embScaledOut T (out.getD i 0)) ∧
      (∀ q k, k ≤ q → makeDecAttnMask q k = 1) ∧
      (∀ q k, q < k → makeDecAttnMask q k = 0) := by
  refine ⟨?_, ?_, ?_, ?_, ?_⟩
  · simp [shiftRight]
  · intro h
    cases out with
    | nil => simp at h
    | cons w ws => simp [shiftRight, List.dropLast]
  · intro i hi
    have h : i + 1 + 1 < (vzero d :: out.map (embScaledOut T)).length := by
      simp; omega
    rw [shiftRight, getD_dropLast _ _ _ h]
    simp only [List.getD_cons_succ]
    have hi2 : i < out.length := by omega
    simp [List.getD_eq_getElem?_getD, List.getElem?_map, List.getElem?_eq_getElem hi2]
  · intro q k hk
    simp [makeDecAttnMask, hk]
  · intro q k hk
    simp [makeDecAttnMask]
    omega

/-- Witness for C7 at a concrete model and `out = [3, 4]`, `i = 0`. -/
theorem claim7_witness :
    (0 + 1 < ([3, 4] : List ℕ).length) ∧
      (shiftRight (([3, 4] : List ℕ).map (embScaledOut (xfmrZ false 0)))).getD (0 + 1) (vzero 1) =
        embScaledOut (xfmrZ false 0) (([3, 4] : List ℕ).getD 0 0) :=
  ⟨by decide,
    (claim7_shift_right_and_causal_mask (xfmrZ false 0) [3, 4]).2.2.1 0 (by decide)⟩

/-- C3 (amended): after `Model.encode` followed by `k` calls of
`Model.decode`, every per-layer self-attention cache and activation cache
has exactly `k + 1` time-steps (the extra step is the all-zero-embedding
step `Model.encode` performs internally), and every per-layer
cross-attention cache has a time-step count equal to the encoder input
length regardless of `k`. -/
theorem claim3_amended_cache_growth {d kd vd nh f nOut : ℕ}
    (M : Model d kd vd nh f nOut) (tr : TrainCtx) (r : ℝ) (inp : List ℕ)
    (il : Option ℕ) (ws : List ℕ) (l : ℕ) (hl : l < M.T.decL.length) :
    ((M.decodeSteps tr (M.encode tr r inp il) ws).decDecKv.getD l []).length = ws.length + 1 ∧
      ((M.decodeSteps tr (M.encode tr r inp il) ws).decLayers.getD l []).length = ws.length + 1 ∧
      ((M.decodeSteps tr (M.encode tr r inp il) ws).decEncKv.getD l []).length = inp.length := by
  obtain ⟨s1, s2, s3, s4, s5⟩ := stateLens M tr r inp il ws
  obtain ⟨g1, g2⟩ := s4 l hl
  refine ⟨g2, g1, ?_⟩
  rw [s5, getD_map_eq_of_lt _ _ _ _ hl]
  simp [encode_fst_length]

/-- Counterexample to C3 as frozen: after `Model.encode` and `k = 0` calls
of `Model.decode`, the layer-0 self-attention cache of a one-layer model
already has 1 time-step, not `k = 0`. -/
theorem claim3_counterexample :
    ¬ ((modelOne.encode none 0 [0] none).decDecKv.getD 0 []).length = 0 := by
  obtain ⟨_, _, _, s4, _⟩ := stateLens modelOne none 0 [0] none []
  obtain ⟨_, g2⟩ := s4 0 (by simp [modelOne, xfmrZ])
  have h : ((modelOne.encode none 0 [0] none).decDecKv.getD 0 []).length = 1 := g2
  omega

/-- Witness for the amended C3 at `modelOne`, one decode call. -/
theorem claim3_witness :
    (0 < modelOne.T.decL.length) ∧
      ((modelOne.decodeSteps none (modelOne.encode none 0 [0] none) [5]).decDecKv.getD 0 []).length = 2 := by
  have hl : 0 < modelOne.T.decL.length := by simp [modelOne, xfmrZ]
  have h := claim3_amended_cache_growth modelOne none 0 [0] none [5] 0 hl
  exact ⟨hl, by simpa using h.1⟩

/-- Counterexample to C9 as frozen: with `dst_rand_offset` enabled and
`is_train = False`, two runs of `Model.encode` on the same input whose
`tf.random_uniform` draws differ return different states (already their
`offset` fields differ), so not every hyperparameter configuration is
deterministic at inference. -/
theorem claim9_counterexample :
    (modelR.encode none 0 [0] none).offset ≠ (modelR.encode none 1 [0] none).offset := by
  have h1 : (modelR.encode none 0 [0] none).offset = 0 + 0 + 1 := rfl
  have h2 : (modelR.encode none 1 [0] none).offset = 0 + 1 + 1 := rfl
  rw [h1, h2]
  norm_num

/-- C9 (amended): with `is_train = False` (dropout scope off) and
`dst_rand_offset` disabled, `Model.encode` and `Model.symbolic_score` are
deterministic — their outputs do not depend on the random draws.  (With
`dst_rand_offset` enabled the random offset is drawn even at inference, see
the counterexample.)  `Model.decode` consumes no randomness at all in this
setting, so its determinism is immediate. -/
theorem claim9_amended_inference_deterministic {d kd vd nh f nOut : ℕ}
    (M : Model d kd vd nh f nOut) (hflag : M.T.dstRandOffset = false)
    (r r' : ℝ) (rf rf' : ℕ → ℝ) (inp out : List ℕ) (il : Option ℕ) :
    M.encode none r inp il = M.encode none r' inp il ∧
      M.symbolicScore none rf inp out = M.symbolicScore none rf' inp out := by
  constructor
  · simp only [Model.encode, hflag]
  · simp only [Model.symbolicScore, Xfmr.decodeB, hflag]

/-- Witness for the amended C9 at `modelZ`. -/
theorem claim9_witness :
    modelZ.T.dstRandOffset = false ∧
      modelZ.encode none 0 [0] none = modelZ.encode none 1 [0] none ∧
      modelZ.symbolicScore none (fun _ => 0) [0] [0] =
        modelZ.symbolicScore none (fun _ => 1) [0] [0] :=
  ⟨rfl,
    (claim9_amended_inference_deterministic modelZ rfl 0 1 (fun _ => 0) (fun _ => 1)
        [0] [0] none).1,
    (claim9_amended_inference_deterministic modelZ rfl 0 1 (fun _ => 0) (fun _ => 1)
        [0] [0] none).2⟩

/-- C10: `Model.encode` performs one internal decode step with an all-zero
embedding, so its state has an empty `out_seq`, offset 1 (when
`dst_rand_offset` is off) and exactly one time-step in every per-layer
self-attention and activation cache; and every `Model.decode(state, words)`
appends `words` to `out_seq` and grows each cache by one step, preserving
cache-length = `len(out_seq) + 1`. -/
theorem claim10_initial_step_and_invariant {d kd vd nh f nOut : ℕ}
    (M : Model d kd vd nh f nOut) (tr : TrainCtx) (r : ℝ) (inp : List ℕ)
    (il : Option ℕ) (hflag : M.T.dstRandOffset = false) :
    (M.encode tr r inp il).outSeq = [] ∧
      (M.encode tr r inp il).offset = 1 ∧
      (∀ l, l < M.T.decL.length →
        ((M.encode tr r inp il).decDecKv.getD l []).length = 1 ∧
          ((M.encode tr r inp il).decLayers.getD l []).length = 1) ∧
      ∀ (s : DecState d kd vd) (w : ℕ) (l : ℕ), l < M.T.decL.length →
        (M.decode tr s (some w)).outSeq = s.outSeq ++ [w] ∧
          ((s.decDecKv.getD l []).length = s.outSeq.length + 1 →
            ((M.decode tr s (some w)).decDecKv.getD l []).length =
              (M.decode tr s (some w)).outSeq.length + 1) ∧
          ((s.decLayers.getD l []).length = s.outSeq.length + 1 →
            ((M.decode tr s (some w)).decLayers.getD l []).length =
              (M.decode tr s (some w)).outSeq.length + 1) := by
  obtain ⟨f1, _, _, f4, _⟩ := encode_state_facts M tr r inp il
  refine ⟨f1, ?_, fun l hl => ⟨(f4 l hl).2, (f4 l hl).1⟩, fun s w l hl => ?_⟩
  · have hoff : (M.encode tr r inp il).offset =
        (match M.T.dstRandOffset with
          | true => (0 : ℝ) + r
          | false => 0) + 1 := rfl
    rw [hflag] at hoff
    simpa using hoff
  · obtain ⟨c1, c2, c3⟩ := decode_cache_lens M tr s (some w)
    obtain ⟨p1, _, _, _⟩ := decode_proj M tr s (some w)
    obtain ⟨e1, e2⟩ := c3 l hl
    refine ⟨by rw [p1]; rfl, fun hh => ?_, fun hh => ?_⟩
    · rw [e2, hh, p1]
      simp [decodedOutSeq]
    · rw [e1, hh, p1]
      simp [decodedOutSeq]

/-- Witness for C10 at `modelOne` and a concrete well-formed state. -/
theorem claim10_witness :
    (modelOne.T.dstRandOffset = false ∧ 0 < modelOne.T.decL.length ∧
        (stateOne.decDecKv.getD 0 []).length = stateOne.outSeq.length + 1) ∧
      ((modelOne.decode none stateOne (some 7)).decDecKv.getD 0 []).length =
        (modelOne.decode none stateOne (some 7)).outSeq.length + 1 := by
  have hl : 0 < modelOne.T.decL.length := by simp [modelOne, xfmrZ]
  have hh : (stateOne.decDecKv.getD 0 []).length = stateOne.outSeq.length + 1 := by
    simp [stateOne]
  exact ⟨⟨rfl, hl, hh⟩,
    ((claim10_initial_step_and_invariant modelOne none 0 [0] none rfl).2.2.2
        stateOne 7 0 hl).2.1 hh⟩

end

end TF
